import Mathlib

/-!
# queryprint: scanner and parser of the Splunk query pretty-printer

A shallow embedding of `src/queryprint/scanner.go`, `src/queryprint/parser.go`
and `src/queryprint/ast.go`.

Conventions of the embedding.

* A Go `string` is a Lean `String`, and the input of the scanner is a list of
  code points (`List Char`): inputs are valid UTF-8, so that `ReadRune` returns
  the code points of the input one by one.
* A channel of tokens is the list of the tokens sent on it, oldest first. The
  receiving end of a closed and drained channel yields the zero token.
* Methods on pointer receivers are state-passing functions: a method returning
  `T` on `*scanner` becomes a function returning `T × scanner`.
* A `for` loop is a function recursive on a fuel counter, and returns `none`
  when the fuel is spent before the loop ends. A result `some _` is therefore
  the result of a run of the code that terminated.
* The rune source of the scanner is the `strings.Reader` of the Go standard
  library, which the test of the repository uses: `UnreadRune` succeeds only
  right after a successful `ReadRune`.
* The methods `fieldsCmd` and `searchCmd` are called by parser.go and defined
  nowhere in the repository: the parser is parametrised by them.

All definitions come first; the theorems follow.
-/

namespace queryprint

/-! ## Tokens (scanner.go, lines 11-87) -/

/-- The token kinds of scanner.go, in the order of the `iota` block, `tEOF`
being the zero value. -/
inductive tokenType where
  | tEOF
  | tAND
  | tBANG_EQUAL
  | tCOMMA
  | tDOT
  | tEQUAL
  | tEQUAL_EQUAL
  | tGREATER
  | tGREATER_EQUAL
  | tIDENTIFIER
  | tLEFT_PAREN
  | tLESS
  | tLESS_EQUAL
  | tLIKE
  | tMINUS
  | tNOT
  | tOR
  | tPERCENT
  | tPIPE
  | tPLUS
  | tQUOTED_FIELD
  | tRIGHT_PAREN
  | tSLASH
  | tSPACE
  | tSTAR
  | tSTRING
  | tXOR
  deriving DecidableEq, Repr

open tokenType

/-- The struct `token` of scanner.go. -/
structure token where
  typ : tokenType
  value : String
  deriving DecidableEq, Repr

/-- The zero value `token{}`: kind `tEOF`, empty text. -/
def token.zero : token := ⟨tEOF, ""⟩

/-- The composite literal `token{typ: typ}`: the text is the empty string. -/
def token.ofTyp (typ : tokenType) : token := ⟨typ, ""⟩

/-! ## Syntax tree (ast.go) -/

mutual
/-- The values of the interface `visitable`: one constructor per type of
ast.go that has a `visit` method. -/
inductive visitable where
  | ofQuery (o : List command)
  | ofCommand (o : command)
  | ofCommaSepArgs (o : List visitable)
  | ofSpaceSepArgs (o : List visitable)
  | ofExprElements (o : List visitable)
  | ofPlainArg (o : String)
/-- The struct `command`; `args` is an interface value and may be nil. -/
inductive command where
  | mk (command : String) (args : Option visitable)
end

/-- The type `query`, a slice of commands. -/
abbrev query := List command

/-- The type `exprElements`, a slice of visitables. -/
abbrev exprElements := List visitable

/-- The type `commaSepArgs`, a slice of visitables. -/
abbrev commaSepArgs := List visitable

/-- The zero value `command{}`. -/
def command.zero : command := command.mk "" none

/-- The field `command` of a command. -/
def command.name : command → String
  | command.mk n _ => n

/-- The field `args` of a command. -/
def command.args : command → Option visitable
  | command.mk _ a => a

/-! ## Parser (parser.go) -/

/-- The struct `parser`. The field `input` is the channel `in`: the tokens not
yet received, the channel being closed after the last of them. -/
structure parser where
  input : List token
  current : token
  err : Option String
  stop : Bool

/-- The method `advance` of parser.go: receive the next token unless stopped; a
closed channel yields the zero token, whose kind is `tEOF`. -/
def parser.advance (p : parser) : Bool × parser :=
  if !p.stop then
    let p1 : parser := { p with current := p.input.headD token.zero, input := p.input.tail }
    let p2 : parser := if p1.current.typ = tEOF then { p1 with stop := true } else p1
    (!p2.stop, p2)
  else
    (!p.stop, p)

/-- The method `currentIs`. -/
def parser.currentIs (p : parser) (typ : tokenType) : Bool :=
  decide (p.current.typ = typ)

/-- The method `advanceIf`. -/
def parser.advanceIf (p : parser) (typ : tokenType) : Bool × parser :=
  if p.currentIs typ then
    (true, p.advance.2)
  else
    (false, p)

/-- The loop `for p.advance() {}` of the method `error`. -/
def parser.advanceLoop : Nat → parser → Option parser
  | 0, _ => none
  | n + 1, p =>
    let r := p.advance
    if r.1 then parser.advanceLoop n r.2 else some r.2

/-- The method `error`: only the first error is recorded, and the channel is
then read until it is exhausted. -/
def parser.error (p : parser) (msg : String) : Option parser :=
  if p.err.isSome then
    some p
  else
    parser.advanceLoop (p.input.length + 1) { p with err := some msg }

/-- The method `expect`. -/
def parser.expect (p : parser) (typ : tokenType) (msg : String) :
    Option ((token × Bool) × parser) :=
  let t := p.current
  let r := p.advanceIf typ
  if !r.1 then
    (r.2.error msg).map (fun p1 => ((token.zero, false), p1))
  else
    some ((t, true), r.2)

/-- The methods `fieldsCmd` and `searchCmd`, which parser.go calls and does not
define: they are parameters of the embedding. -/
structure cmdParsers where
  fieldsCmd : parser → Option (command × parser)
  searchCmd : parser → Option (command × parser)

/-- The method `evalExpr`: one call of the function with the value of the named
result `elements`; each iteration of the loop and each nested call takes one
unit of fuel. -/
def parser.evalExpr : Nat → parser → exprElements → Option (exprElements × parser)
  | 0, _, _ => none
  | n + 1, p, elements =>
    if !(p.stop || p.currentIs tCOMMA || p.currentIs tPIPE || p.currentIs tRIGHT_PAREN) then
      let r := p.advanceIf tLEFT_PAREN
      if r.1 then
        let p1 := (r.2.advanceIf tSPACE).2
        match parser.evalExpr n p1 [] with
        | none => none
        | some (parenExpr, p2) =>
          let r2 := p2.advanceIf tRIGHT_PAREN
          if r2.1 then
            (r2.2.error "Found unbalanced parentheses").map (fun p3 => (elements, p3))
          else if parenExpr.length ≤ 0 then
            (r2.2.error "Expected expression inside parentheses").map (fun p3 => (elements, p3))
          else
            parser.evalExpr n r2.2 elements
      else
        parser.evalExpr n r.2 elements
    else
      some (elements, p)

/-- The loop of the method `evalCmd`, with the value of `cmdArgs`. -/
def parser.evalCmdLoop : Nat → parser → commaSepArgs → Option (commaSepArgs × parser)
  | 0, _, _ => none
  | n + 1, p, cmdArgs =>
    if !p.stop then
      let p1 := (p.advanceIf tSPACE).2
      if p1.currentIs tPIPE then
        some (cmdArgs, p1)
      else
        match parser.evalExpr n p1 [] with
        | none => none
        | some (expr, p2) =>
          parser.evalCmdLoop n (p2.advanceIf tCOMMA).2 (cmdArgs ++ [visitable.ofExprElements expr])
    else
      some (cmdArgs, p)

/-- The method `evalCmd`. -/
def parser.evalCmd (n : Nat) (p : parser) : Option (command × parser) :=
  (parser.evalCmdLoop n p []).map
    (fun r => (command.mk "eval" (some (visitable.ofCommaSepArgs r.1)), r.2))

/-- The method `command`. -/
def parser.command (c : cmdParsers) (n : Nat) (p : parser) : Option (command × parser) :=
  match p.expect tIDENTIFIER "Expected Splunk command after '|' and in query beginning" with
  | none => none
  | some ((cmdTok, ok), p1) =>
    if ok then
      if cmdTok.value = "eval" then parser.evalCmd n p1
      else if cmdTok.value = "fields" then c.fieldsCmd p1
      else c.searchCmd p1
    else
      some (command.zero, p1)

/-- The loop of the method `query`, with the values of `cmd` and `q`. -/
def parser.queryLoop (c : cmdParsers) :
    Nat → parser → queryprint.command → queryprint.query → Option (queryprint.query × parser)
  | 0, _, _, _ => none
  | n + 1, p, cmd, q =>
    if !p.stop then
      let q1 := q ++ [cmd]
      let r := p.advanceIf tPIPE
      if !r.1 then
        some (q1, r.2)
      else
        match parser.command c n r.2 with
        | none => none
        | some (cmd1, p1) => parser.queryLoop c n p1 cmd1 q1
    else
      some (q, p)

/-- The method `query`. -/
def parser.query (c : cmdParsers) (n : Nat) (p : parser) : Option (queryprint.query × parser) :=
  match parser.command c n p with
  | none => none
  | some (cmd, p1) =>
    match parser.queryLoop c n p1 cmd [] with
    | none => none
    | some (q, p2) =>
      if !p2.stop then
        (p2.error "Found unexpected tokens following query").map (fun p3 => (q, p3))
      else
        some (q, p2)

/-- The function `ParseQuery` on the channel that delivers the tokens `toks` and
is then closed: the query and the error returned (`p.err` is read once
`p.query()` has returned), or `none` when the fuel `n` is spent. -/
def ParseQuery (c : cmdParsers) (n : Nat) (toks : List token) : Option (query × Option String) :=
  let p : parser := { input := toks, current := token.zero, err := none, stop := false }
  (parser.query c n p.advance.2).map (fun r => (r.1, r.2.err))

/-! ## Rune source

`ScanQuery` reads its input through an `io.RuneScanner`; the test of the
repository passes a `strings.Reader` of the Go standard library. -/

/-- The error `io.EOF`. -/
def EOF : String := "EOF"

/-- The double quote, code point 34. -/
def dquote : Char := Char.ofNat 34

/-- The single quote, code point 39. -/
def squote : Char := Char.ofNat 39

/-- The backslash, code point 92. -/
def backslash : Char := Char.ofNat 92

/-- The reader `strings.Reader` over valid UTF-8, one code point at a time:
`past` holds the code points before the offset `i`, the last one read first,
`rest` the code points from `i` on, and `prevRune` tells whether the field
`prevRune` is non-negative, in which case it is the offset of the head of
`past`. -/
structure Reader where
  past : List Char
  rest : List Char
  prevRune : Bool

/-- The function `strings.NewReader`. -/
def NewReader (s : List Char) : Reader := ⟨[], s, false⟩

/-- The method `ReadRune` of `strings.Reader`: at the end of the string it
returns `io.EOF` and forgets the previous rune. -/
def Reader.ReadRune (r : Reader) : (Char × Option String) × Reader :=
  match r.rest with
  | [] => ((Char.ofNat 0, some EOF), { r with prevRune := false })
  | c :: cs => ((c, none), { past := c :: r.past, rest := cs, prevRune := true })

/-- The method `UnreadRune` of `strings.Reader`: it fails at the beginning of
the string and when the previous operation was not a successful `ReadRune`. -/
def Reader.UnreadRune (r : Reader) : Option String × Reader :=
  match r.past with
  | [] => (some "strings.Reader.UnreadRune: at beginning of string", r)
  | c :: ps =>
    if !r.prevRune then
      (some "strings.Reader.UnreadRune: previous operation was not ReadRune", r)
    else
      (none, { past := ps, rest := c :: r.rest, prevRune := false })

/-- The function `unicode.IsSpace`: the white space of Latin-1 and the code
points of the Unicode property White_Space above it. -/
def IsSpace (r : Char) : Bool :=
  let n := r.toNat
  if n ≤ 255 then
    n = 9 || n = 10 || n = 11 || n = 12 || n = 13 || n = 32 || n = 133 || n = 160
  else
    n = 5760 || (8192 ≤ n && n ≤ 8202) || n = 8232 || n = 8233 || n = 8239 || n = 8287
      || n = 12288

/-! ## Scanner (scanner.go) -/

/-- The constant `identTerms`. -/
def identTerms : List Char :=
  [',', '.', '=', '>', '(', ')', '<', '-', '%', '|', '+', '/', '*', '!', ' ', dquote]

/-- The map `singleCharTokens`. -/
def singleCharTokens : List (Char × tokenType) :=
  [(',', tCOMMA), ('.', tDOT), ('=', tEQUAL), ('>', tGREATER), ('(', tLEFT_PAREN),
   ('<', tLESS), ('-', tMINUS), ('%', tPERCENT), ('|', tPIPE), ('+', tPLUS),
   (')', tRIGHT_PAREN), ('/', tSLASH), ('*', tSTAR)]

/-- The map `doubleCharTokens`. -/
def doubleCharTokens : List (Char × List (Char × tokenType)) :=
  [('!', [('=', tBANG_EQUAL)]), ('=', [('=', tEQUAL_EQUAL)]),
   ('>', [('=', tGREATER_EQUAL)]), ('<', [('=', tLESS_EQUAL)])]

/-- The map `keyWords`. -/
def keyWords : List (String × tokenType) :=
  [("AND", tAND), ("NOT", tNOT), ("OR", tOR), ("XOR", tXOR)]

/-- The struct `scanner`. The field `out` is the channel `out`: the tokens sent
so far, oldest first. -/
structure scanner where
  input : Reader
  out : List token
  current : Char
  err : Option String

/-- The send statement `p.out <- t`. -/
def scanner.send (p : scanner) (t : token) : scanner :=
  { p with out := p.out ++ [t] }

/-- The method `advance` of scanner.go. -/
def scanner.advance (p : scanner) : Bool × scanner :=
  if p.err.isSome then
    (false, p)
  else
    let r := p.input.ReadRune
    match r.1.2 with
    | some e =>
      if e ≠ EOF then (false, { p with input := r.2, err := some e })
      else (false, { p with input := r.2 })
    | none => (true, { p with input := r.2, current := r.1.1 })

/-- The method `stepBack`. -/
def scanner.stepBack (p : scanner) : Bool × scanner :=
  if p.err.isSome then
    (false, p)
  else
    let r := p.input.UnreadRune
    match r.1 with
    | some e => (false, { p with input := r.2, err := some e })
    | none => (true, { p with input := r.2 })

/-- The method `trySingleCharToken`. -/
def scanner.trySingleCharToken (p : scanner) : Bool × scanner :=
  match singleCharTokens.lookup p.current with
  | some typ => (true, p.send (token.ofTyp typ))
  | none => (false, p)

/-- The method `tryDoubleCharToken`. -/
def scanner.tryDoubleCharToken (p : scanner) : Bool × scanner :=
  match doubleCharTokens.lookup p.current with
  | some nextChars =>
    let oldCurrent := p.current
    let r := p.advance
    if r.1 then
      match nextChars.lookup r.2.current with
      | some typ => (true, r.2.send (token.ofTyp typ))
      | none => (false, { r.2.stepBack.2 with current := oldCurrent })
    else
      (false, r.2)
  | none => (false, p)

/-- The loop of the method `trySpace`. -/
def scanner.trySpaceLoop : Nat → scanner → Option scanner
  | 0, _ => none
  | n + 1, p =>
    let r := p.advance
    if r.1 then
      if !IsSpace r.2.current then some r.2.stepBack.2
      else scanner.trySpaceLoop n r.2
    else
      some r.2

/-- The method `trySpace`. -/
def scanner.trySpace (p : scanner) : Option (Bool × scanner) :=
  if !IsSpace p.current then
    some (false, p)
  else
    (scanner.trySpaceLoop (p.input.rest.length + 1) p).map
      (fun p1 => (true, p1.send (token.ofTyp tSPACE)))

/-- The loop of the method `identifier`, with the contents of the builder
`tokenVal`. -/
def scanner.identifierLoop : Nat → scanner → List Char → Option (scanner × List Char)
  | 0, _, _ => none
  | n + 1, p, tokenVal =>
    let r := p.advance
    if r.1 then
      if r.2.current = backslash then
        let r2 := r.2.advance
        if !r2.1 then some (r2.2, tokenVal ++ [backslash])
        else scanner.identifierLoop n r2.2 (tokenVal ++ [backslash] ++ [r2.2.current])
      else if identTerms.contains r.2.current || IsSpace r.2.current then
        some (r.2.stepBack.2, tokenVal)
      else
        scanner.identifierLoop n r.2 (tokenVal ++ [r.2.current])
    else
      some (r.2, tokenVal)

/-- The method `identifier`. -/
def scanner.identifier (p : scanner) : Option scanner :=
  let r := p.stepBack
  if !r.1 then
    some r.2
  else
    match scanner.identifierLoop (r.2.input.rest.length + 1) r.2 [] with
    | none => none
    | some (p1, tokenVal) =>
      let tokenStr := String.mk tokenVal
      match keyWords.lookup tokenStr with
      | some typ => some (p1.send (token.ofTyp typ))
      | none => some (p1.send ⟨tIDENTIFIER, tokenStr⟩)

/-- The loop of the method `quotedToken`, with the contents of the builder
`tokenVal`. -/
def scanner.quotedTokenLoop (terminator : Char) :
    Nat → scanner → List Char → Option (scanner × List Char)
  | 0, _, _ => none
  | n + 1, p, tokenVal =>
    let r := p.advance
    if r.1 then
      let tv := tokenVal ++ [r.2.current]
      if r.2.current = backslash then
        let r2 := r.2.advance
        if !r2.1 then some (r2.2, tv)
        else scanner.quotedTokenLoop terminator n r2.2 (tv ++ [r2.2.current])
      else if r.2.current = terminator then
        some (r.2, tv)
      else
        scanner.quotedTokenLoop terminator n r.2 tv
    else
      some (r.2, tokenVal)

/-- The method `quotedToken`. -/
def scanner.quotedToken (p : scanner) (typ : tokenType) (terminator : Char) : Option scanner :=
  (scanner.quotedTokenLoop terminator (p.input.rest.length + 1) p [p.current]).map
    (fun r => r.1.send ⟨typ, String.mk r.2⟩)

/-- The method `string`. -/
def scanner.string (p : scanner) : Option scanner :=
  p.quotedToken tSTRING dquote

/-- The method `quotedField`. -/
def scanner.quotedField (p : scanner) : Option scanner :=
  p.quotedToken tQUOTED_FIELD squote

/-- The body of the loop of the method `parse`: the `switch` on `p.current`. -/
def scanner.parseBody (p : scanner) : Option scanner :=
  if p.current = backslash then p.identifier
  else if p.current = dquote then p.string
  else if p.current = squote then p.quotedField
  else
    let d := p.tryDoubleCharToken
    if d.1 then some d.2
    else
      let s := d.2.trySingleCharToken
      if s.1 then some s.2
      else
        match s.2.trySpace with
        | none => none
        | some sp => if sp.1 then some sp.2 else sp.2.identifier

/-- The method `parse`: the scanner when the loop has ended; `p.err` is the
error returned. -/
def scanner.parse : Nat → scanner → Option scanner
  | 0, _ => none
  | n + 1, p =>
    let r := p.advance
    if r.1 then
      match r.2.parseBody with
      | none => none
      | some p1 => scanner.parse n p1
    else
      some r.2

/-- The function `ScanQuery` on the reader `inp` and a fresh channel: the tokens
sent on the channel and the error returned, or `none` when the loop of `parse`
has not ended after `n` iterations. -/
def ScanQuery (n : Nat) (inp : Reader) : Option (List token × Option String) :=
  (scanner.parse n { input := inp, out := [], current := Char.ofNat 0, err := none }).map
    (fun p => (p.out, p.err))

/-- The function `ScanQuery` on `strings.NewReader(s)`, as in the test of the
repository. Each iteration of `parse` that goes on reads a code point, so the
loop has at most `s.length + 1` iterations. -/
def scanString (s : String) : Option (List token × Option String) :=
  ScanQuery (s.length + 1) (NewReader s.data)

/-! ## Token sequences of the statements about the parser -/

/-- The tokens that follow the first `eval` in `k + 1` commands `eval` separated
by `|`. -/
def pipeTail : Nat → List token
  | 0 => []
  | k + 1 => ⟨tPIPE, ""⟩ :: ⟨tIDENTIFIER, "eval"⟩ :: pipeTail k

/-- The token sequence of `eval|eval|...|eval`, with `k + 1` commands. -/
def evalPipeline (k : Nat) : List token := ⟨tIDENTIFIER, "eval"⟩ :: pipeTail k

/-- The command `command{"eval", commaSepArgs{}}`. -/
def emptyEval : command := command.mk "eval" (some (visitable.ofCommaSepArgs []))

/-- The parser once `command` has read one `eval` that `k` further commands
follow: stopped at the end of the input, or standing on the next `|`. -/
def afterEval : Nat → parser
  | 0 => ⟨[], token.zero, none, true⟩
  | k + 1 => ⟨⟨tIDENTIFIER, "eval"⟩ :: pipeTail k, ⟨tPIPE, ""⟩, none, false⟩

/-! ## What one iteration of `parse` does, as a function of the input

The functions below restate the scanner over the list of the code points not
yet read; the theorems show that the scanner computes them. -/

/-- The text that the loop of `identifier` accumulates from the code points
`cs`, and the code points it leaves unread. -/
def identSpan : List Char → List Char × List Char
  | [] => ([], [])
  | c :: cs =>
    if c = backslash then
      match cs with
      | [] => ([backslash], [])
      | d :: ds => (backslash :: d :: (identSpan ds).1, (identSpan ds).2)
    else if identTerms.contains c || IsSpace c then ([], c :: cs)
    else (c :: (identSpan cs).1, (identSpan cs).2)

/-- The text that the loop of `quotedToken` accumulates after the opening
delimiter from the code points `cs`, and the code points it leaves unread. -/
def quotedSpan (terminator : Char) : List Char → List Char × List Char
  | [] => ([], [])
  | c :: cs =>
    if c = backslash then
      match cs with
      | [] => ([backslash], [])
      | d :: ds => (backslash :: d :: (quotedSpan terminator ds).1, (quotedSpan terminator ds).2)
    else if c = terminator then ([c], cs)
    else (c :: (quotedSpan terminator cs).1, (quotedSpan terminator cs).2)

/-- The token that `identifier` sends for the accumulated text `w`. -/
def identToken (w : List Char) : token :=
  match keyWords.lookup (String.mk w) with
  | some typ => token.ofTyp typ
  | none => ⟨tIDENTIFIER, String.mk w⟩

/-- The outcome of one iteration of `parse`: the tokens sent, the error
recorded, the code points left unread. -/
structure lexOut where
  toks : List token
  err : Option String
  rest : List Char

/-- The iteration of `parse` once `tryDoubleCharToken` has returned false on
the code point `c` followed by `cs`; `unread` tells whether `c` starts a
two-character operator, in which case the reader cannot step back again. -/
def lexAfterDouble (c : Char) (cs : List Char) (unread : Bool) : lexOut :=
  match singleCharTokens.lookup c with
  | some typ => ⟨[token.ofTyp typ], none, cs⟩
  | none =>
    if IsSpace c then ⟨[token.ofTyp tSPACE], none, cs.dropWhile IsSpace⟩
    else if unread then
      ⟨[], some "strings.Reader.UnreadRune: previous operation was not ReadRune", cs⟩
    else ⟨[identToken (identSpan (c :: cs)).1], none, (identSpan (c :: cs)).2⟩

/-- The iteration of `parse` that reads the code point `c`, `cs` following. -/
def lexStep (c : Char) (cs : List Char) : lexOut :=
  if c = backslash then
    ⟨[identToken (identSpan (c :: cs)).1], none, (identSpan (c :: cs)).2⟩
  else if c = dquote then
    ⟨[⟨tSTRING, String.mk (c :: (quotedSpan dquote cs).1)⟩], none, (quotedSpan dquote cs).2⟩
  else if c = squote then
    ⟨[⟨tQUOTED_FIELD, String.mk (c :: (quotedSpan squote cs).1)⟩], none,
      (quotedSpan squote cs).2⟩
  else
    match doubleCharTokens.lookup c with
    | some nextChars =>
      match cs with
      | [] => lexAfterDouble c cs true
      | d :: ds =>
        match nextChars.lookup d with
        | some typ => ⟨[token.ofTyp typ], none, ds⟩
        | none => lexAfterDouble c cs true
    | none => lexAfterDouble c cs false

/-- The tokens sent and the error returned by at most `n` iterations of `parse`
on the unread code points `cs`. -/
def lexN : Nat → List Char → List token × Option String
  | 0, _ => ([], none)
  | _ + 1, [] => ([], none)
  | n + 1, c :: cs =>
    match (lexStep c cs).err with
    | some e => ((lexStep c cs).toks, some e)
    | none => ((lexStep c cs).toks ++ (lexN n (lexStep c cs).rest).1, (lexN n (lexStep c cs).rest).2)

/-- The tokens sent and the error returned by `parse` on the unread code points
`cs`: `cs.length + 1` iterations are enough. -/
def lexAll (cs : List Char) : List token × Option String :=
  lexN (cs.length + 1) cs

/-! ## Rendering of tokens, white space runs -/

/-- The spelling of the operator, keyword or punctuation of a token kind, one
space for `tSPACE`; the kinds that carry a text and `tEOF` have none. -/
def spelling : tokenType → String
  | tEOF => ""
  | tAND => "AND"
  | tBANG_EQUAL => "!="
  | tCOMMA => ","
  | tDOT => "."
  | tEQUAL => "="
  | tEQUAL_EQUAL => "=="
  | tGREATER => ">"
  | tGREATER_EQUAL => ">="
  | tIDENTIFIER => ""
  | tLEFT_PAREN => "("
  | tLESS => "<"
  | tLESS_EQUAL => "<="
  | tLIKE => "LIKE"
  | tMINUS => "-"
  | tNOT => "NOT"
  | tOR => "OR"
  | tPERCENT => "%"
  | tPIPE => "|"
  | tPLUS => "+"
  | tQUOTED_FIELD => ""
  | tRIGHT_PAREN => ")"
  | tSLASH => "/"
  | tSPACE => " "
  | tSTAR => "*"
  | tSTRING => ""
  | tXOR => "XOR"

/-- The rendering of a token: its text for an identifier, a string or a quoted
field, the spelling of its kind otherwise. -/
def renderToken (t : token) : List Char :=
  if t.typ = tIDENTIFIER ∨ t.typ = tSTRING ∨ t.typ = tQUOTED_FIELD then t.value.data
  else (spelling t.typ).data

/-- The renderings of the tokens, concatenated in order. -/
def renderTokens : List token → List Char
  | [] => []
  | t :: ts => renderToken t ++ renderTokens ts

/-- The code points `cs` with every run of white space collapsed to one space;
`prevSpace` tells whether the code point before `cs` is white space, in which
case the run has its space already. -/
def collapseFrom : Bool → List Char → List Char
  | _, [] => []
  | prevSpace, c :: cs =>
    if IsSpace c then
      if prevSpace then collapseFrom true cs else ' ' :: collapseFrom true cs
    else c :: collapseFrom false cs

/-- A string with every run of white space collapsed to a single space. -/
def collapse (cs : List Char) : List Char := collapseFrom false cs

/-- The number of maximal runs of white space that start in `cs`; `prevSpace`
tells whether the code point before `cs` is white space. -/
def wsRunsFrom : Bool → List Char → Nat
  | _, [] => 0
  | prevSpace, c :: cs =>
    if IsSpace c then
      (if prevSpace then 0 else 1) + wsRunsFrom true cs
    else wsRunsFrom false cs

/-- The number of maximal runs of white space of a string. -/
def wsRuns (cs : List Char) : Nat := wsRunsFrom false cs

/-- The number of tokens of kind `tSPACE`. -/
def countSpaceTokens (toks : List token) : Nat :=
  toks.countP (fun t => decide (t.typ = tSPACE))

/-! ## Visitor (ast.go, lines 22-36) -/

/-- The type `spaceSepArgs`, a slice of visitables. -/
abbrev spaceSepArgs := List visitable

/-- The type `plainArg`, a string. -/
abbrev plainArg := String

/-- The interface `visitor`: a value of the interface is its six methods. -/
structure visitor where
  visitQuery : query → String
  visitCommand : command → String
  visitCommaSepArgs : commaSepArgs → String
  visitSpaceSepArgs : spaceSepArgs → String
  visitExprElements : exprElements → String
  visitPlainArg : plainArg → String

/-- The method `visit` of the type `query`. -/
def query.visit (o : query) (v : visitor) : String := v.visitQuery o

/-- The method `visit` of the type `command`. -/
def command.visit (o : command) (v : visitor) : String := v.visitCommand o

/-- The method `visit` of the type `commaSepArgs`. -/
def commaSepArgs.visit (o : commaSepArgs) (v : visitor) : String := v.visitCommaSepArgs o

/-- The method `visit` of the type `spaceSepArgs`. -/
def spaceSepArgs.visit (o : spaceSepArgs) (v : visitor) : String := v.visitSpaceSepArgs o

/-- The method `visit` of the type `exprElements`. -/
def exprElements.visit (o : exprElements) (v : visitor) : String := v.visitExprElements o

/-- The method `visit` of the type `plainArg`. -/
def plainArg.visit (o : plainArg) (v : visitor) : String := v.visitPlainArg o

/-- The call `n.visit(v)` on a value `n` of the interface `visitable`: the
method of the dynamic type of `n`. -/
def visitable.visit : visitable → visitor → String
  | visitable.ofQuery o, v => query.visit o v
  | visitable.ofCommand o, v => command.visit o v
  | visitable.ofCommaSepArgs o, v => commaSepArgs.visit o v
  | visitable.ofSpaceSepArgs o, v => spaceSepArgs.visit o v
  | visitable.ofExprElements o, v => exprElements.visit o v
  | visitable.ofPlainArg o, v => plainArg.visit o v

/-! ## The source of the parser -/

/-- The tokens of a channel that follow its first token of kind `tEOF`: what a
parser that has read up to the end of the input leaves unread. -/
def afterEOF : List token → List token
  | [] => []
  | t :: ts => if t.typ = tEOF then ts else afterEOF ts

/-- The parser as `ParseQuery` creates it on the channel that delivers `toks`.
-/
def parser.init (toks : List token) : parser :=
  { input := toks, current := token.zero, err := none, stop := false }

/-- The message of `command` for a token that is not an identifier. -/
def expectedCommand : String := "Expected Splunk command after '|' and in query beginning"

/-- A property of parser states that `advance` and `error` keep. -/
structure parser.Stable (P : parser → Prop) : Prop where
  advance : ∀ p : parser, P p → P p.advance.2
  error : ∀ (p : parser) (msg : String) (p1 : parser), P p → p.error msg = some p1 → P p1

/-- The methods `fieldsCmd` and `searchCmd` keep the property `P` of parser
states, as methods do that change the parser through `advance` and `error`
only. -/
def cmdParsers.keeps (c : cmdParsers) (P : parser → Prop) : Prop :=
  ∀ (p : parser) (r : command × parser), P p →
    (c.fieldsCmd p = some r → P r.2) ∧ (c.searchCmd p = some r → P r.2)

/-- The parser reads a channel without token of kind `tEOF`, has nothing left
to read once it is stopped, and is stopped once it has recorded an error. -/
def parser.fed (p : parser) : Prop :=
  (∀ t ∈ p.input, t.typ ≠ tEOF) ∧ (p.stop = true → p.input = []) ∧
    (p.err.isSome = true → p.stop = true)

/-- Methods `fieldsCmd` and `searchCmd` that never return. -/
def noCmds : cmdParsers := ⟨fun _ => none, fun _ => none⟩

/-- The tokens `toks` spell the code points `cs`: `cs` is the concatenation,
token by token, of a run of one or more white space code points, which ends
where white space ends, for a token of kind `tSPACE`, and of the rendering of
the token for a token of any other kind. -/
def spelledBy : List token → List Char → Prop
  | [], cs => cs = []
  | t :: ts, cs =>
    if t.typ = tSPACE then
      ∃ ws rest, cs = ws ++ rest ∧ ws ≠ [] ∧ (∀ x ∈ ws, IsSpace x = true) ∧
        (∀ d ∈ rest.head?, IsSpace d = false) ∧ spelledBy ts rest
    else ∃ rest, cs = renderToken t ++ rest ∧ spelledBy ts rest

end queryprint

/-! ## Theorems: parser -/

namespace queryprint
open tokenType

/-- C1: the query returned with a nil error can be empty. On the single token
`eval` and on the tokens `eval`, whitespace, `ParseQuery` returns a nil error
and a query without any command: `query` appends a command only while the stop
flag is clear, and reading the end of the input sets the flag. -/
theorem ParseQuery_nil_error_empty_query (c : cmdParsers) (n : Nat) :
    ParseQuery c (n + 1) [⟨tIDENTIFIER, "eval"⟩] = some ([], none) ∧
    ParseQuery c (n + 2) [⟨tIDENTIFIER, "eval"⟩, ⟨tSPACE, ""⟩] = some ([], none) ∧
    ¬ (∀ (m : Nat) (toks : List token) (q : query),
        ParseQuery c m toks = some (q, none) → 1 ≤ q.length) := by
  refine ⟨rfl, rfl, fun h => ?_⟩
  have h1 := h 1 [⟨tIDENTIFIER, "eval"⟩] [] rfl
  simp at h1

end queryprint

namespace queryprint
open tokenType

theorem command_eval (c : cmdParsers) (k n : Nat) :
    parser.command c (n + 1) ⟨pipeTail k, ⟨tIDENTIFIER, "eval"⟩, none, false⟩
      = some (emptyEval, afterEval k) := by
  cases k <;> rfl

theorem queryLoop_evals (c : cmdParsers) (k : Nat) : ∀ (n : Nat) (q : query),
    parser.queryLoop c (n + k + 1) (afterEval k) emptyEval q
      = some (q ++ List.replicate k emptyEval, ⟨[], token.zero, none, true⟩) := by
  induction k with
  | zero => intro n q; simp [parser.queryLoop, afterEval]
  | succ k ih =>
    intro n q
    have h1 : n + (k + 1) + 1 = (n + k + 1) + 1 := by omega
    rw [h1, parser.queryLoop]
    have h2 : (afterEval (k + 1)).advanceIf tPIPE
        = (true, ⟨pipeTail k, ⟨tIDENTIFIER, "eval"⟩, none, false⟩) := rfl
    have h3 : (afterEval (k + 1)).stop = false := rfl
    simp only [h2, h3]
    have h4 := command_eval c k (n + k)
    simp [h4, ih n (q ++ [emptyEval]), List.replicate_succ]

theorem ParseQuery_evalPipeline (c : cmdParsers) (k n : Nat) :
    ParseQuery c (n + k + 1) (evalPipeline k) = some (List.replicate k emptyEval, none) := by
  have h1 : (parser.mk (evalPipeline k) token.zero none false).advance.2
      = ⟨pipeTail k, ⟨tIDENTIFIER, "eval"⟩, none, false⟩ := rfl
  simp only [ParseQuery, h1, parser.query, command_eval c k (n + k), queryLoop_evals c k n []]
  simp

/-- C3: the last command of a pipeline is left out of the query. The tokens of
`k + 1` commands `eval` separated by `|` parse, with a nil error, to a query of
`k` commands and not of `k + 1`; the tokens of `eval|eval` give one command. -/
theorem ParseQuery_drops_last_command (c : cmdParsers) (k n : Nat) :
    ParseQuery c (n + k + 1) (evalPipeline k) = some (List.replicate k emptyEval, none) ∧
    (List.replicate k emptyEval).length = k ∧
    ParseQuery c (n + 2) [⟨tIDENTIFIER, "eval"⟩, ⟨tPIPE, ""⟩, ⟨tIDENTIFIER, "eval"⟩]
      = some ([command.mk "eval" (some (visitable.ofCommaSepArgs []))], none) :=
  ⟨ParseQuery_evalPipeline c k n, List.length_replicate k emptyEval,
    ParseQuery_evalPipeline c 1 n⟩

/-- C4: on the single token `eval` the method `command` does build the command
named `eval` with an empty `commaSepArgs` and stops at the end of the input, but
`ParseQuery` returns a nil error with a query that holds no command. -/
theorem ParseQuery_eval_alone (c : cmdParsers) (n : Nat) :
    parser.command c (n + 1) ⟨[], ⟨tIDENTIFIER, "eval"⟩, none, false⟩
      = some (command.mk "eval" (some (visitable.ofCommaSepArgs [])),
          ⟨[], token.zero, none, true⟩) ∧
    ParseQuery c (n + 1) [⟨tIDENTIFIER, "eval"⟩] = some ([], none) :=
  ⟨rfl, rfl⟩

end queryprint

namespace queryprint
open tokenType

/-! ## Theorems: the scanner computes `lexN` -/

@[simp] theorem advance_nil (past : List Char) (pr : Bool) (out : List token) (cur : Char) :
    scanner.advance ⟨⟨past, [], pr⟩, out, cur, none⟩ = (false, ⟨⟨past, [], false⟩, out, cur, none⟩) := by
  simp [scanner.advance, Reader.ReadRune, EOF]

@[simp] theorem advance_cons (past : List Char) (c : Char) (cs : List Char) (pr : Bool)
    (out : List token) (cur : Char) :
    scanner.advance ⟨⟨past, c :: cs, pr⟩, out, cur, none⟩
      = (true, ⟨⟨c :: past, cs, true⟩, out, c, none⟩) := by
  simp [scanner.advance, Reader.ReadRune]

@[simp] theorem advance_err (inp : Reader) (out : List token) (cur : Char) (e : String) :
    scanner.advance ⟨inp, out, cur, some e⟩ = (false, ⟨inp, out, cur, some e⟩) := by
  simp [scanner.advance]

@[simp] theorem stepBack_ok (c : Char) (past rest : List Char) (out : List token) (cur : Char) :
    scanner.stepBack ⟨⟨c :: past, rest, true⟩, out, cur, none⟩
      = (true, ⟨⟨past, c :: rest, false⟩, out, cur, none⟩) := by
  simp [scanner.stepBack, Reader.UnreadRune]

@[simp] theorem stepBack_fail (c : Char) (past rest : List Char) (out : List token) (cur : Char) :
    scanner.stepBack ⟨⟨c :: past, rest, false⟩, out, cur, none⟩
      = (false, ⟨⟨c :: past, rest, false⟩, out, cur,
          some "strings.Reader.UnreadRune: previous operation was not ReadRune"⟩) := by
  simp [scanner.stepBack, Reader.UnreadRune]

theorem identSpan_term (c : Char) (cs : List Char) (hb : c ≠ backslash)
    (ht : c ∈ identTerms ∨ IsSpace c = true) : identSpan (c :: cs) = ([], c :: cs) := by
  cases cs <;> simp [identSpan, hb, ht]

theorem identSpan_other (c : Char) (cs : List Char) (hb : c ≠ backslash)
    (ht : ¬ (c ∈ identTerms ∨ IsSpace c = true)) :
    identSpan (c :: cs) = (c :: (identSpan cs).1, (identSpan cs).2) := by
  cases cs <;> simp [identSpan, hb, ht]

theorem quotedSpan_term (q c : Char) (cs : List Char) (hb : c ≠ backslash) (ht : c = q) :
    quotedSpan q (c :: cs) = ([c], cs) := by
  subst ht
  cases cs <;> simp [quotedSpan, hb]

theorem quotedSpan_other (q c : Char) (cs : List Char) (hb : c ≠ backslash) (ht : c ≠ q) :
    quotedSpan q (c :: cs) = (c :: (quotedSpan q cs).1, (quotedSpan q cs).2) := by
  cases cs <;> simp [quotedSpan, hb, ht]

theorem trySpaceLoop_eq (n : Nat) : ∀ (past rest : List Char) (pr : Bool) (out : List token)
    (cur : Char), rest.length < n →
    ∃ past1 pr1 cur1, scanner.trySpaceLoop n ⟨⟨past, rest, pr⟩, out, cur, none⟩
      = some ⟨⟨past1, rest.dropWhile IsSpace, pr1⟩, out, cur1, none⟩ := by
  induction n with
  | zero => intro past rest pr out cur h; simp at h
  | succ n ih =>
    intro past rest pr out cur h
    cases rest with
    | nil => exact ⟨past, false, cur, by simp [scanner.trySpaceLoop]⟩
    | cons c cs =>
      simp only [List.length_cons, Nat.add_lt_add_iff_right] at h
      by_cases hc : IsSpace c = true
      · obtain ⟨past1, pr1, cur1, h1⟩ := ih (c :: past) cs true out c h
        exact ⟨past1, pr1, cur1, by simp [scanner.trySpaceLoop, hc, h1]⟩
      · exact ⟨past, false, c, by simp [scanner.trySpaceLoop, hc]⟩

theorem identifierLoop_eq (n : Nat) : ∀ (past rest : List Char) (pr : Bool) (out : List token)
    (cur : Char) (acc : List Char), rest.length < n →
    ∃ past1 pr1 cur1, scanner.identifierLoop n ⟨⟨past, rest, pr⟩, out, cur, none⟩ acc
      = some (⟨⟨past1, (identSpan rest).2, pr1⟩, out, cur1, none⟩, acc ++ (identSpan rest).1) := by
  induction n with
  | zero => intro past rest pr out cur acc h; simp at h
  | succ n ih =>
    intro past rest pr out cur acc h
    cases rest with
    | nil => exact ⟨past, false, cur, by simp [scanner.identifierLoop, identSpan]⟩
    | cons c cs =>
      simp only [List.length_cons, Nat.add_lt_add_iff_right] at h
      by_cases hb : c = backslash
      · cases cs with
        | nil =>
          exact ⟨c :: past, false, c, by simp [scanner.identifierLoop, identSpan, hb]⟩
        | cons d ds =>
          have hd : ds.length < n := by simp only [List.length_cons] at h; omega
          obtain ⟨past1, pr1, cur1, h1⟩ :=
            ih (d :: c :: past) ds true out d (acc ++ [backslash] ++ [d]) hd
          refine ⟨past1, pr1, cur1, ?_⟩
          subst hb
          simp only [List.append_assoc, List.singleton_append] at h1
          simp [scanner.identifierLoop, identSpan, h1]
      · by_cases ht : c ∈ identTerms ∨ IsSpace c = true
        · exact ⟨past, false, c, by simp [scanner.identifierLoop, identSpan_term c cs hb ht, hb, ht]⟩
        · obtain ⟨past1, pr1, cur1, h1⟩ := ih (c :: past) cs true out c (acc ++ [c]) h
          refine ⟨past1, pr1, cur1, ?_⟩
          simp only [List.append_assoc, List.singleton_append] at h1
          simp [scanner.identifierLoop, identSpan_other c cs hb ht, hb, ht, h1]

theorem quotedTokenLoop_eq (q : Char) (n : Nat) : ∀ (past rest : List Char) (pr : Bool)
    (out : List token) (cur : Char) (acc : List Char), rest.length < n →
    ∃ past1 pr1 cur1, scanner.quotedTokenLoop q n ⟨⟨past, rest, pr⟩, out, cur, none⟩ acc
      = some (⟨⟨past1, (quotedSpan q rest).2, pr1⟩, out, cur1, none⟩,
          acc ++ (quotedSpan q rest).1) := by
  induction n with
  | zero => intro past rest pr out cur acc h; simp at h
  | succ n ih =>
    intro past rest pr out cur acc h
    cases rest with
    | nil => exact ⟨past, false, cur, by simp [scanner.quotedTokenLoop, quotedSpan]⟩
    | cons c cs =>
      simp only [List.length_cons, Nat.add_lt_add_iff_right] at h
      by_cases hb : c = backslash
      · cases cs with
        | nil =>
          exact ⟨c :: past, false, c, by simp [scanner.quotedTokenLoop, quotedSpan, hb]⟩
        | cons d ds =>
          have hd : ds.length < n := by simp only [List.length_cons] at h; omega
          obtain ⟨past1, pr1, cur1, h1⟩ :=
            ih (d :: c :: past) ds true out d (acc ++ [backslash] ++ [d]) hd
          refine ⟨past1, pr1, cur1, ?_⟩
          subst hb
          simp only [List.append_assoc, List.singleton_append] at h1
          simp [scanner.quotedTokenLoop, quotedSpan, h1]
      · by_cases ht : c = q
        · subst ht
          exact ⟨c :: past, true, c, by simp [scanner.quotedTokenLoop, quotedSpan_term c c cs hb rfl, hb]⟩
        · obtain ⟨past1, pr1, cur1, h1⟩ := ih (c :: past) cs true out c (acc ++ [c]) h
          refine ⟨past1, pr1, cur1, ?_⟩
          simp only [List.append_assoc, List.singleton_append] at h1
          simp [scanner.quotedTokenLoop, quotedSpan_other q c cs hb ht, hb, ht, h1]

theorem identifier_eq (c : Char) (past cs : List Char) (out : List token) (cur : Char) :
    ∃ past1 pr1 cur1, scanner.identifier ⟨⟨c :: past, cs, true⟩, out, cur, none⟩
      = some ⟨⟨past1, (identSpan (c :: cs)).2, pr1⟩,
          out ++ [identToken (identSpan (c :: cs)).1], cur1, none⟩ := by
  obtain ⟨past1, pr1, cur1, h1⟩ :=
    identifierLoop_eq ((c :: cs).length + 1) past (c :: cs) false out cur [] (Nat.lt_succ_self _)
  refine ⟨past1, pr1, cur1, ?_⟩
  simp only [List.nil_append] at h1
  simp only [scanner.identifier, stepBack_ok, Bool.not_true, Bool.false_eq_true, if_false, h1,
    identToken]
  cases keyWords.lookup (String.mk (identSpan (c :: cs)).1) <;> simp [scanner.send]

theorem identifier_fail (c : Char) (past rest : List Char) (out : List token) (cur : Char) :
    scanner.identifier ⟨⟨c :: past, rest, false⟩, out, cur, none⟩
      = some ⟨⟨c :: past, rest, false⟩, out, cur,
          some "strings.Reader.UnreadRune: previous operation was not ReadRune"⟩ := by
  simp [scanner.identifier]

theorem quotedToken_eq (typ : tokenType) (q c : Char) (past cs : List Char) (pr : Bool)
    (out : List token) :
    ∃ past1 pr1 cur1, scanner.quotedToken ⟨⟨past, cs, pr⟩, out, c, none⟩ typ q
      = some ⟨⟨past1, (quotedSpan q cs).2, pr1⟩,
          out ++ [⟨typ, String.mk (c :: (quotedSpan q cs).1)⟩], cur1, none⟩ := by
  obtain ⟨past1, pr1, cur1, h1⟩ :=
    quotedTokenLoop_eq q (cs.length + 1) past cs pr out c [c] (Nat.lt_succ_self _)
  refine ⟨past1, pr1, cur1, ?_⟩
  simp [scanner.quotedToken, h1, scanner.send]

theorem trySpace_eq (past cs : List Char) (pr : Bool) (out : List token) (c : Char)
    (hc : IsSpace c = true) :
    ∃ past1 pr1 cur1, scanner.trySpace ⟨⟨past, cs, pr⟩, out, c, none⟩
      = some (true, ⟨⟨past1, cs.dropWhile IsSpace, pr1⟩, out ++ [token.ofTyp tSPACE], cur1, none⟩) := by
  obtain ⟨past1, pr1, cur1, h1⟩ :=
    trySpaceLoop_eq (cs.length + 1) past cs pr out c (Nat.lt_succ_self _)
  refine ⟨past1, pr1, cur1, ?_⟩
  simp [scanner.trySpace, hc, h1, scanner.send]

theorem trySpace_not (p : scanner) (hc : IsSpace p.current = false) :
    scanner.trySpace p = some (false, p) := by
  simp [scanner.trySpace, hc]

theorem parseBody_afterDouble (p : scanner) (c : Char) (past cs : List Char) (pr : Bool)
    (out : List token) (h1 : p.current ≠ backslash) (h2 : p.current ≠ dquote)
    (h3 : p.current ≠ squote)
    (hd : p.tryDoubleCharToken = (false, ⟨⟨c :: past, cs, pr⟩, out, c, none⟩)) :
    ∃ past1 pr1 cur1, p.parseBody
      = some ⟨⟨past1, (lexAfterDouble c cs (!pr)).rest, pr1⟩,
          out ++ (lexAfterDouble c cs (!pr)).toks, cur1, (lexAfterDouble c cs (!pr)).err⟩ := by
  simp only [scanner.parseBody, h1, h2, h3, if_false, hd, Bool.false_eq_true]
  cases hs : singleCharTokens.lookup c with
  | some typ =>
    exact ⟨c :: past, pr, c, by simp [scanner.trySingleCharToken, hs, lexAfterDouble, scanner.send]⟩
  | none =>
    simp only [scanner.trySingleCharToken, hs, lexAfterDouble, Bool.false_eq_true, if_false]
    by_cases hsp : IsSpace c = true
    · obtain ⟨past1, pr1, cur1, h⟩ := trySpace_eq (c :: past) cs pr out c hsp
      exact ⟨past1, pr1, cur1, by simp [h, hsp]⟩
    · simp only [Bool.not_eq_true] at hsp
      rw [trySpace_not _ hsp]
      cases pr with
      | true =>
        obtain ⟨past1, pr1, cur1, h⟩ := identifier_eq c past cs out c
        exact ⟨past1, pr1, cur1, by simp [h, hsp]⟩
      | false =>
        exact ⟨c :: past, false, c, by simp [identifier_fail, hsp]⟩

theorem parseBody_eq (c : Char) (past cs : List Char) (out : List token) :
    ∃ past1 pr1 cur1, scanner.parseBody ⟨⟨c :: past, cs, true⟩, out, c, none⟩
      = some ⟨⟨past1, (lexStep c cs).rest, pr1⟩, out ++ (lexStep c cs).toks, cur1,
          (lexStep c cs).err⟩ := by
  by_cases h1 : c = backslash
  · subst h1
    obtain ⟨past1, pr1, cur1, h⟩ := identifier_eq backslash past cs out backslash
    exact ⟨past1, pr1, cur1, by simp [scanner.parseBody, lexStep, h]⟩
  by_cases h2 : c = dquote
  · subst h2
    obtain ⟨past1, pr1, cur1, h⟩ :=
      quotedToken_eq tSTRING dquote dquote (dquote :: past) cs true out
    exact ⟨past1, pr1, cur1, by simp [scanner.parseBody, lexStep, h1, scanner.string, h]⟩
  by_cases h3 : c = squote
  · subst h3
    obtain ⟨past1, pr1, cur1, h⟩ :=
      quotedToken_eq tQUOTED_FIELD squote squote (squote :: past) cs true out
    exact ⟨past1, pr1, cur1,
      by simp [scanner.parseBody, lexStep, h1, h2, scanner.quotedField, h]⟩
  cases hD : doubleCharTokens.lookup c with
  | none =>
    have hd : scanner.tryDoubleCharToken ⟨⟨c :: past, cs, true⟩, out, c, none⟩
        = (false, ⟨⟨c :: past, cs, true⟩, out, c, none⟩) := by
      simp [scanner.tryDoubleCharToken, hD]
    obtain ⟨past1, pr1, cur1, h⟩ := parseBody_afterDouble _ c past cs true out h1 h2 h3 hd
    exact ⟨past1, pr1, cur1, by simpa [lexStep, h1, h2, h3, hD] using h⟩
  | some nc =>
    cases cs with
    | nil =>
      have hd : scanner.tryDoubleCharToken ⟨⟨c :: past, [], true⟩, out, c, none⟩
          = (false, ⟨⟨c :: past, [], false⟩, out, c, none⟩) := by
        simp [scanner.tryDoubleCharToken, hD]
      obtain ⟨past1, pr1, cur1, h⟩ := parseBody_afterDouble _ c past [] false out h1 h2 h3 hd
      exact ⟨past1, pr1, cur1, by simpa [lexStep, h1, h2, h3, hD] using h⟩
    | cons d ds =>
      cases hn : nc.lookup d with
      | some typ =>
        refine ⟨d :: c :: past, true, d, ?_⟩
        simp [scanner.parseBody, lexStep, h1, h2, h3, hD, hn, scanner.tryDoubleCharToken,
          scanner.send]
      | none =>
        have hd : scanner.tryDoubleCharToken ⟨⟨c :: past, d :: ds, true⟩, out, c, none⟩
            = (false, ⟨⟨c :: past, d :: ds, false⟩, out, c, none⟩) := by
          simp [scanner.tryDoubleCharToken, hD, hn]
        obtain ⟨past1, pr1, cur1, h⟩ :=
          parseBody_afterDouble _ c past (d :: ds) false out h1 h2 h3 hd
        exact ⟨past1, pr1, cur1, by simpa [lexStep, h1, h2, h3, hD, hn] using h⟩

theorem identSpan_rest_le (n : Nat) : ∀ l : List Char, l.length ≤ n →
    (identSpan l).2.length ≤ l.length := by
  induction n with
  | zero =>
    intro l h
    have : l = [] := List.length_eq_zero.mp (Nat.le_zero.mp h)
    subst this
    simp [identSpan]
  | succ n ih =>
    intro l h
    cases l with
    | nil => simp [identSpan]
    | cons c cs =>
      simp only [List.length_cons, Nat.add_le_add_iff_right] at h
      by_cases hb : c = backslash
      · subst hb
        cases cs with
        | nil => simp [identSpan]
        | cons d ds =>
          have := ih ds (by simp only [List.length_cons] at h; omega)
          simp only [identSpan, if_true, List.length_cons]
          omega
      · by_cases ht : c ∈ identTerms ∨ IsSpace c = true
        · rw [identSpan_term c cs hb ht]
        · rw [identSpan_other c cs hb ht]
          have := ih cs h
          simp only [List.length_cons]
          omega

theorem identSpan_rest_lt (c : Char) (cs : List Char)
    (h : c = backslash ∨ ¬ (c ∈ identTerms ∨ IsSpace c = true)) :
    (identSpan (c :: cs)).2.length ≤ cs.length := by
  by_cases hb : c = backslash
  · subst hb
    cases cs with
    | nil => simp [identSpan]
    | cons d ds =>
      have := identSpan_rest_le ds.length ds (Nat.le_refl _)
      simp only [identSpan, if_true, List.length_cons]
      omega
  · have ht := h.resolve_left hb
    rw [identSpan_other c cs hb ht]
    exact identSpan_rest_le cs.length cs (Nat.le_refl _)

theorem quotedSpan_rest_le (q : Char) (n : Nat) : ∀ l : List Char, l.length ≤ n →
    (quotedSpan q l).2.length ≤ l.length := by
  induction n with
  | zero =>
    intro l h
    have : l = [] := List.length_eq_zero.mp (Nat.le_zero.mp h)
    subst this
    simp [quotedSpan]
  | succ n ih =>
    intro l h
    cases l with
    | nil => simp [quotedSpan]
    | cons c cs =>
      simp only [List.length_cons, Nat.add_le_add_iff_right] at h
      by_cases hb : c = backslash
      · subst hb
        cases cs with
        | nil => simp [quotedSpan]
        | cons d ds =>
          have := ih ds (by simp only [List.length_cons] at h; omega)
          simp only [quotedSpan, if_true, List.length_cons]
          omega
      · by_cases ht : c = q
        · rw [quotedSpan_term q c cs hb ht]
          simp
        · rw [quotedSpan_other q c cs hb ht]
          have := ih cs h
          simp only [List.length_cons]
          omega

theorem dropWhile_length_le (f : Char → Bool) (l : List Char) :
    (l.dropWhile f).length ≤ l.length :=
  (List.dropWhile_suffix f).length_le

/-- A terminator of identifiers has a one-character token, or is `!`, white
space or the double quote. -/
theorem identTerms_cases (c : Char) (h : c ∈ identTerms) :
    (singleCharTokens.lookup c).isSome = true ∨ (doubleCharTokens.lookup c).isSome = true
      ∨ IsSpace c = true ∨ c = dquote := by
  simp only [identTerms, List.mem_cons, List.mem_singleton, List.not_mem_nil, or_false] at h
  rcases h with h | h | h | h | h | h | h | h | h | h | h | h | h | h | h | h <;> subst h <;>
    first
      | (right; right; right; rfl)
      | (left; decide)
      | (right; left; decide)
      | (right; right; left; decide)

theorem lexAfterDouble_rest_le (c : Char) (cs : List Char) (b : Bool) (h2 : c ≠ dquote)
    (hD : b = false → doubleCharTokens.lookup c = none) :
    (lexAfterDouble c cs b).rest.length ≤ cs.length := by
  unfold lexAfterDouble
  cases hs : singleCharTokens.lookup c with
  | some typ => simp
  | none =>
    by_cases hsp : IsSpace c = true
    · simp [hsp, dropWhile_length_le]
    · cases b with
      | true => simp [hsp]
      | false =>
        simp only [hsp, Bool.false_eq_true, if_false]
        apply identSpan_rest_lt
        right
        intro ht
        rcases ht with ht | ht
        · rcases identTerms_cases c ht with h | h | h | h
          · simp [hs] at h
          · simp [hD rfl] at h
          · exact hsp h
          · exact h2 h
        · exact hsp ht

theorem lexStep_rest_le (c : Char) (cs : List Char) :
    (lexStep c cs).rest.length ≤ cs.length := by
  unfold lexStep
  by_cases h1 : c = backslash
  · simp only [h1, if_true]
    exact identSpan_rest_lt _ _ (Or.inl rfl)
  by_cases h2 : c = dquote
  · simp only [h1, h2, if_true, if_false]
    exact quotedSpan_rest_le _ _ _ (Nat.le_refl _)
  by_cases h3 : c = squote
  · simp only [h1, h2, h3, if_true, if_false]
    exact quotedSpan_rest_le _ _ _ (Nat.le_refl _)
  simp only [h1, h2, h3, if_false]
  cases hD : doubleCharTokens.lookup c with
  | none => exact lexAfterDouble_rest_le c cs false h2 (fun _ => hD)
  | some nc =>
    cases cs with
    | nil => simpa using lexAfterDouble_rest_le c [] true h2 (by simp)
    | cons d ds =>
      cases hn : nc.lookup d with
      | some typ => simp [hn]
      | none => simpa [hn] using lexAfterDouble_rest_le c (d :: ds) true h2 (by simp)

theorem parse_eq (n : Nat) : ∀ (past rest : List Char) (pr : Bool) (out : List token)
    (cur : Char), rest.length < n →
    ∃ p1, scanner.parse n ⟨⟨past, rest, pr⟩, out, cur, none⟩ = some p1
      ∧ p1.out = out ++ (lexN n rest).1 ∧ p1.err = (lexN n rest).2 := by
  induction n with
  | zero => intro past rest pr out cur h; simp at h
  | succ n ih =>
    intro past rest pr out cur h
    cases rest with
    | nil =>
      exact ⟨⟨⟨past, [], false⟩, out, cur, none⟩, by simp [scanner.parse], by simp [lexN],
        by simp [lexN]⟩
    | cons c cs =>
      simp only [List.length_cons, Nat.add_lt_add_iff_right] at h
      obtain ⟨past1, pr1, cur1, hb⟩ := parseBody_eq c past cs out
      simp only [scanner.parse, advance_cons, if_true, hb, lexN]
      cases he : (lexStep c cs).err with
      | some e =>
        cases n with
        | zero => simp at h
        | succ m =>
          exact ⟨⟨⟨past1, (lexStep c cs).rest, pr1⟩, out ++ (lexStep c cs).toks, cur1, some e⟩,
            by simp [scanner.parse], by simp, by simp⟩
      | none =>
        obtain ⟨p1, hp, ho, her⟩ := ih past1 (lexStep c cs).rest pr1
          (out ++ (lexStep c cs).toks) cur1 (Nat.lt_of_le_of_lt (lexStep_rest_le c cs) h)
        exact ⟨p1, hp, by simp [ho], by simp [her]⟩

theorem lexN_fuel (n : Nat) : ∀ (m : Nat) (rest : List Char), rest.length < n →
    rest.length < m → lexN n rest = lexN m rest := by
  induction n with
  | zero => intro m rest h; simp at h
  | succ n ih =>
    intro m rest h hm
    cases m with
    | zero => simp at hm
    | succ m =>
      cases rest with
      | nil => simp [lexN]
      | cons c cs =>
        simp only [List.length_cons, Nat.add_lt_add_iff_right] at h hm
        have hr := lexStep_rest_le c cs
        simp only [lexN]
        rw [ih m (lexStep c cs).rest (by omega) (by omega)]

theorem lexAll_nil : lexAll [] = ([], none) := by
  simp [lexAll, lexN]

theorem lexAll_cons (c : Char) (cs : List Char) :
    lexAll (c :: cs) =
      match (lexStep c cs).err with
      | some e => ((lexStep c cs).toks, some e)
      | none => ((lexStep c cs).toks ++ (lexAll (lexStep c cs).rest).1,
          (lexAll (lexStep c cs).rest).2) := by
  have hr := lexStep_rest_le c cs
  simp only [lexAll, List.length_cons, lexN]
  rw [lexN_fuel (cs.length + 1) ((lexStep c cs).rest.length + 1) (lexStep c cs).rest
    (by omega) (by omega)]

theorem scanString_eq (s : String) : scanString s = some (lexAll s.data) := by
  obtain ⟨p1, hp, ho, he⟩ :=
    parse_eq (s.data.length + 1) [] s.data false [] (Char.ofNat 0) (Nat.lt_succ_self _)
  have hl : s.length = s.data.length := rfl
  simp only [scanString, ScanQuery, NewReader, hl, hp, Option.map_some', lexAll]
  simp [ho, he]

end queryprint

namespace queryprint
open tokenType

/-! ## Theorems: scanner -/

/-- C2: a `!` that no `=` follows makes `ScanQuery` return an error. On `!x`,
on `!` alone and on `a!` the scanner of `strings.NewReader` returns the error
of `UnreadRune` and sends no token for the `!`: `tryDoubleCharToken` has
stepped back (or has read the end of the input), so the `stepBack` that opens
`identifier` is refused by the reader. -/
theorem ScanQuery_bang_error :
    scanString "!x"
      = some ([], some "strings.Reader.UnreadRune: previous operation was not ReadRune") ∧
    scanString "!"
      = some ([], some "strings.Reader.UnreadRune: previous operation was not ReadRune") ∧
    scanString "a!"
      = some ([⟨tIDENTIFIER, "a"⟩],
          some "strings.Reader.UnreadRune: previous operation was not ReadRune") := by
  decide

theorem lexAll_forall (P : token → Prop)
    (hstep : ∀ (c : Char) (cs : List Char), ∀ t ∈ (lexStep c cs).toks, P t) (n : Nat) :
    ∀ cs : List Char, cs.length ≤ n → ∀ t ∈ (lexAll cs).1, P t := by
  induction n with
  | zero =>
    intro cs h t ht
    have : cs = [] := List.length_eq_zero.mp (Nat.le_zero.mp h)
    subst this
    simp [lexAll_nil] at ht
  | succ n ih =>
    intro cs h t ht
    cases cs with
    | nil => simp [lexAll_nil] at ht
    | cons c r =>
      simp only [List.length_cons, Nat.add_le_add_iff_right] at h
      rw [lexAll_cons] at ht
      cases he : (lexStep c r).err with
      | some e =>
        simp only [he] at ht
        exact hstep c r t ht
      | none =>
        simp only [he, List.mem_append] at ht
        rcases ht with ht | ht
        · exact hstep c r t ht
        · exact ih _ (Nat.le_trans (lexStep_rest_le c r) h) t ht

theorem keyWords_lookup_none (w : String) (h : keyWords.lookup w = none) :
    w ≠ "AND" ∧ w ≠ "OR" ∧ w ≠ "NOT" ∧ w ≠ "XOR" := by
  refine ⟨?_, ?_, ?_, ?_⟩ <;> intro hw <;> subst hw <;> revert h <;> decide

theorem keyWords_lookup_some (w : String) (typ : tokenType) (h : keyWords.lookup w = some typ) :
    (w = "AND" ∧ typ = tAND) ∨ (w = "NOT" ∧ typ = tNOT) ∨ (w = "OR" ∧ typ = tOR)
      ∨ (w = "XOR" ∧ typ = tXOR) := by
  simp only [keyWords, List.lookup] at h
  split at h
  · simp_all
  · split at h
    · simp_all
    · split at h
      · simp_all
      · split at h
        · simp_all
        · simp at h

theorem identToken_not_keyword (w : List Char) :
    (identToken w).value ≠ "AND" ∧ (identToken w).value ≠ "OR" ∧ (identToken w).value ≠ "NOT"
      ∧ (identToken w).value ≠ "XOR" := by
  unfold identToken
  cases hk : keyWords.lookup (String.mk w) with
  | some typ => simp [token.ofTyp]
  | none => simpa using keyWords_lookup_none _ hk

theorem lexStep_value (c : Char) (cs : List Char) :
    ∀ t ∈ (lexStep c cs).toks, t.value = "" ∨ t.typ = tSTRING ∨ t.typ = tQUOTED_FIELD
      ∨ ∃ w, t = identToken w := by
  intro t ht
  unfold lexStep at ht
  have hA : ∀ b, t ∈ (lexAfterDouble c cs b).toks → t.value = "" ∨ t.typ = tSTRING
      ∨ t.typ = tQUOTED_FIELD ∨ ∃ w, t = identToken w := by
    intro b hb
    unfold lexAfterDouble at hb
    split at hb
    · simp only [List.mem_singleton] at hb
      subst hb
      exact Or.inl rfl
    · split at hb
      · simp only [List.mem_singleton] at hb
        subst hb
        exact Or.inl rfl
      · split at hb
        · simp at hb
        · simp only [List.mem_singleton] at hb
          exact Or.inr (Or.inr (Or.inr ⟨_, hb⟩))
  split at ht
  · simp only [List.mem_singleton] at ht
    exact Or.inr (Or.inr (Or.inr ⟨_, ht⟩))
  · split at ht
    · simp only [List.mem_singleton] at ht
      subst ht
      exact Or.inr (Or.inl rfl)
    · split at ht
      · simp only [List.mem_singleton] at ht
        subst ht
        exact Or.inr (Or.inr (Or.inl rfl))
      · split at ht
        · split at ht
          · exact hA _ ht
          · split at ht
            · simp only [List.mem_singleton] at ht
              subst ht
              exact Or.inl rfl
            · exact hA _ ht
        · exact hA _ ht

/-- C7: no identifier token carries the text `AND`, `OR`, `NOT` or `XOR`. For
every input the scanner ends, and none of the identifier tokens it has sent has
one of the four words as text; whatever text the loop of `identifier` has
accumulated, the method sends the keyword token without text when the text is
one of the four words in upper case, and the identifier token with that text
otherwise; `AND`, `OR`, `NOT`, `XOR` scan to the keyword tokens and `and` to an
identifier. -/
theorem ScanQuery_keyword_precedence :
    (∀ s : String, ∃ toks err, scanString s = some (toks, err) ∧
      ∀ t ∈ toks, t.typ = tIDENTIFIER →
        t.value ≠ "AND" ∧ t.value ≠ "OR" ∧ t.value ≠ "NOT" ∧ t.value ≠ "XOR") ∧
    (∀ (p p1 : scanner) (tokenVal : List Char), p.stepBack.1 = true →
      scanner.identifierLoop (p.stepBack.2.input.rest.length + 1) p.stepBack.2 []
        = some (p1, tokenVal) →
      p.identifier = some (p1.send
        (if String.mk tokenVal = "AND" then ⟨tAND, ""⟩
         else if String.mk tokenVal = "NOT" then ⟨tNOT, ""⟩
         else if String.mk tokenVal = "OR" then ⟨tOR, ""⟩
         else if String.mk tokenVal = "XOR" then ⟨tXOR, ""⟩
         else ⟨tIDENTIFIER, String.mk tokenVal⟩))) ∧
    scanString "AND" = some ([⟨tAND, ""⟩], none) ∧
    scanString "OR" = some ([⟨tOR, ""⟩], none) ∧
    scanString "NOT" = some ([⟨tNOT, ""⟩], none) ∧
    scanString "XOR" = some ([⟨tXOR, ""⟩], none) ∧
    scanString "and" = some ([⟨tIDENTIFIER, "and"⟩], none) := by
  refine ⟨?_, ?_, by decide, by decide, by decide, by decide, by decide⟩
  · intro s
    refine ⟨(lexAll s.data).1, (lexAll s.data).2, scanString_eq s, ?_⟩
    refine lexAll_forall _ ?_ s.data.length s.data (Nat.le_refl _)
    intro c cs t ht hty
    rcases lexStep_value c cs t ht with h | h | h | ⟨w, h⟩
    · rw [h]; decide
    · rw [h] at hty; exact absurd hty (by decide)
    · rw [h] at hty; exact absurd hty (by decide)
    · subst h; exact identToken_not_keyword w
  · intro p p1 tokenVal h1 h2
    simp only [scanner.identifier, h1, h2, Bool.not_true, Bool.false_eq_true, if_false]
    cases hk : keyWords.lookup (String.mk tokenVal) with
    | none =>
      obtain ⟨a, b, c, d⟩ := keyWords_lookup_none _ hk
      simp [a, b, c, d]
    | some typ =>
      rcases keyWords_lookup_some _ _ hk with ⟨a, b⟩ | ⟨a, b⟩ | ⟨a, b⟩ | ⟨a, b⟩ <;>
        simp [a, b, token.ofTyp]

/-- At the input `NOT AND x`: the scanner ends, and the identifier token `x` it
sends is none of the four words; and `identifier`, called once `A` of `AND` has
been read, accumulates `AND` and sends the token `tAND` without text. -/
theorem ScanQuery_keyword_precedence_witness :
    (∃ toks err, scanString "NOT AND x" = some (toks, err) ∧
      ∀ t ∈ toks, t.typ = tIDENTIFIER →
        t.value ≠ "AND" ∧ t.value ≠ "OR" ∧ t.value ≠ "NOT" ∧ t.value ≠ "XOR") ∧
    scanner.identifier ⟨⟨['A'], ['N', 'D'], true⟩, [], 'A', none⟩
      = some ⟨⟨['D', 'N', 'A'], [], false⟩, [⟨tAND, ""⟩], 'D', none⟩ :=
  ⟨ScanQuery_keyword_precedence.1 "NOT AND x",
    ScanQuery_keyword_precedence.2.1 ⟨⟨['A'], ['N', 'D'], true⟩, [], 'A', none⟩
      ⟨⟨['D', 'N', 'A'], [], false⟩, [], 'D', none⟩ ['A', 'N', 'D'] rfl rfl⟩

theorem lexStep_double (c : Char) (rest : List Char) (typ : tokenType)
    (h : (c, typ) ∈ [('!', tBANG_EQUAL), ('=', tEQUAL_EQUAL), ('>', tGREATER_EQUAL),
      ('<', tLESS_EQUAL)]) :
    lexStep c ('=' :: rest) = ⟨[token.ofTyp typ], none, rest⟩ := by
  simp only [List.mem_cons, Prod.mk.injEq, List.mem_singleton, List.not_mem_nil, or_false] at h
  rcases h with ⟨h1, h2⟩ | ⟨h1, h2⟩ | ⟨h1, h2⟩ | ⟨h1, h2⟩ <;> subst h1 <;> subst h2 <;>
    simp [lexStep, doubleCharTokens, List.lookup, backslash, dquote, squote]

theorem lexStep_single_of_double (c : Char) (rest : List Char) (typ : tokenType)
    (h : (c, typ) ∈ [('=', tEQUAL), ('>', tGREATER), ('<', tLESS)])
    (hr : rest.head? ≠ some '=') :
    lexStep c rest = ⟨[token.ofTyp typ], none, rest⟩ := by
  simp only [List.mem_cons, Prod.mk.injEq, List.mem_singleton, List.not_mem_nil, or_false] at h
  rcases h with ⟨h1, h2⟩ | ⟨h1, h2⟩ | ⟨h1, h2⟩ <;> subst h1 <;> subst h2 <;>
    cases rest with
    | nil =>
      simp [lexStep, lexAfterDouble, doubleCharTokens, singleCharTokens, List.lookup, backslash,
        dquote, squote]
    | cons d ds =>
      have hd : d ≠ '=' := by simpa using hr
      have hd2 : ('=' == d) = false := by simpa using fun h => hd h.symm
      have hd3 : (d == '=') = false := by simpa using hd
      simp [lexStep, lexAfterDouble, doubleCharTokens, singleCharTokens, List.lookup, backslash,
        dquote, squote, hd2, hd3]

theorem scanString_cons_ok (c : Char) (rest : List Char) (t : token)
    (h : lexStep c rest = ⟨[t], none, rest⟩) :
    scanString (String.mk (c :: rest)) = some (t :: (lexAll rest).1, (lexAll rest).2) := by
  rw [scanString_eq]
  simp [lexAll_cons, h]

theorem scanString_cons2_ok (c d : Char) (rest : List Char) (t : token)
    (h : lexStep c (d :: rest) = ⟨[t], none, rest⟩) :
    scanString (String.mk (c :: d :: rest)) = some (t :: (lexAll rest).1, (lexAll rest).2) := by
  rw [scanString_eq]
  simp [lexAll_cons, h]

/-- C8: two-character operators and their lookahead. For every string `rest`
the scanner ends on `rest`, and with `toks` and `err` its tokens and error: the
scan of `!=`, `==`, `>=`, `<=` followed by `rest` sends the combined token and
then `toks`, with the error `err`; and when `rest` does not start with `=`, the
scan of `=`, `>`, `<` followed by `rest` sends the one-character token and then
`toks`, with the error `err`. -/
theorem ScanQuery_digraph (rest : String) :
    ∃ toks err, scanString rest = some (toks, err) ∧
      scanString ("!=" ++ rest) = some (⟨tBANG_EQUAL, ""⟩ :: toks, err) ∧
      scanString ("==" ++ rest) = some (⟨tEQUAL_EQUAL, ""⟩ :: toks, err) ∧
      scanString (">=" ++ rest) = some (⟨tGREATER_EQUAL, ""⟩ :: toks, err) ∧
      scanString ("<=" ++ rest) = some (⟨tLESS_EQUAL, ""⟩ :: toks, err) ∧
      (rest.data.head? ≠ some '=' →
        scanString ("=" ++ rest) = some (⟨tEQUAL, ""⟩ :: toks, err) ∧
        scanString (">" ++ rest) = some (⟨tGREATER, ""⟩ :: toks, err) ∧
        scanString ("<" ++ rest) = some (⟨tLESS, ""⟩ :: toks, err)) := by
  refine ⟨(lexAll rest.data).1, (lexAll rest.data).2, scanString_eq rest, ?_, ?_, ?_, ?_, ?_⟩
  · exact scanString_cons2_ok '!' '=' rest.data _ (lexStep_double _ _ _ (by simp))
  · exact scanString_cons2_ok '=' '=' rest.data _ (lexStep_double _ _ _ (by simp))
  · exact scanString_cons2_ok '>' '=' rest.data _ (lexStep_double _ _ _ (by simp))
  · exact scanString_cons2_ok '<' '=' rest.data _ (lexStep_double _ _ _ (by simp))
  · intro hr
    exact ⟨scanString_cons_ok '=' rest.data _ (lexStep_single_of_double _ _ _ (by simp) hr),
      scanString_cons_ok '>' rest.data _ (lexStep_single_of_double _ _ _ (by simp) hr),
      scanString_cons_ok '<' rest.data _ (lexStep_single_of_double _ _ _ (by simp) hr)⟩

/-- At `rest = x>1`, which does not start with `=`: the scans of `!=x>1` and of
`=x>1` send the operator and then the tokens of `x>1`. -/
theorem ScanQuery_digraph_witness :
    ∃ toks err, scanString "x>1" = some (toks, err) ∧
      scanString "!=x>1" = some (⟨tBANG_EQUAL, ""⟩ :: toks, err) ∧
      scanString "=x>1" = some (⟨tEQUAL, ""⟩ :: toks, err) := by
  obtain ⟨toks, err, h0, h1, _, _, _, h5⟩ := ScanQuery_digraph "x>1"
  exact ⟨toks, err, h0, h1, (h5 (by decide)).1⟩

end queryprint

namespace queryprint
open tokenType

theorem quotedSpan_plain (q : Char) (hq : q ≠ backslash) (s : List Char) :
    (∀ x ∈ s, x ≠ q ∧ x ≠ backslash) →
    (∀ r, quotedSpan q (s ++ q :: r) = (s ++ [q], r)) ∧ quotedSpan q s = (s, []) := by
  induction s with
  | nil =>
    intro _
    exact ⟨fun r => by simpa using quotedSpan_term q q r hq rfl, by simp [quotedSpan]⟩
  | cons a s ih =>
    intro h
    have ha := h a (List.mem_cons_self a s)
    obtain ⟨ih1, ih2⟩ := ih (fun x hx => h x (List.mem_cons_of_mem a hx))
    refine ⟨fun r => ?_, ?_⟩
    · rw [List.cons_append, quotedSpan_other q a _ ha.2 ha.1, ih1 r]
      rfl
    · rw [quotedSpan_other q a _ ha.2 ha.1, ih2]

theorem lexStep_dquote (cs : List Char) :
    lexStep dquote cs = ⟨[⟨tSTRING, String.mk (dquote :: (quotedSpan dquote cs).1)⟩], none,
      (quotedSpan dquote cs).2⟩ := by
  have h : dquote ≠ backslash := by decide
  simp [lexStep, h]

theorem lexStep_squote (cs : List Char) :
    lexStep squote cs = ⟨[⟨tQUOTED_FIELD, String.mk (squote :: (quotedSpan squote cs).1)⟩], none,
      (quotedSpan squote cs).2⟩ := by
  have h : squote ≠ backslash := by decide
  have h2 : squote ≠ dquote := by decide
  simp [lexStep, h, h2]

theorem lexStep_quoted (q : Char) (typ : tokenType) (cs : List Char)
    (hq : (q, typ) = (dquote, tSTRING) ∨ (q, typ) = (squote, tQUOTED_FIELD)) :
    q ≠ backslash ∧
    lexStep q cs = ⟨[⟨typ, String.mk (q :: (quotedSpan q cs).1)⟩], none, (quotedSpan q cs).2⟩ := by
  rcases hq with h | h <;> simp only [Prod.mk.injEq] at h <;> obtain ⟨h1, h2⟩ := h <;>
    subst h1 <;> subst h2
  · exact ⟨by decide, lexStep_dquote cs⟩
  · exact ⟨by decide, lexStep_squote cs⟩

/-- C9: quoted literals. For the delimiter `"` with the kind `tSTRING` and the
delimiter `'` with the kind `tQUOTED_FIELD`, and every string `s` that holds
neither the delimiter nor a backslash: the scan of the delimiter, `s` and the
delimiter sends exactly one token of that kind whose text is the whole input,
the scan of the delimiter and `s`, without the closing delimiter, sends exactly
one token of that kind whose text is the whole input, and no error is returned
in either case. -/
theorem ScanQuery_quoted_literal (q : Char) (typ : tokenType) (s : String)
    (hq : (q, typ) = (dquote, tSTRING) ∨ (q, typ) = (squote, tQUOTED_FIELD))
    (h1 : q ∉ s.data) (h2 : backslash ∉ s.data) :
    scanString (String.mk (q :: s.data ++ [q]))
      = some ([⟨typ, String.mk (q :: s.data ++ [q])⟩], none) ∧
    scanString (String.mk (q :: s.data)) = some ([⟨typ, String.mk (q :: s.data)⟩], none) := by
  obtain ⟨hqb, hstep⟩ : q ≠ backslash ∧ ∀ cs, lexStep q cs
      = ⟨[⟨typ, String.mk (q :: (quotedSpan q cs).1)⟩], none, (quotedSpan q cs).2⟩ :=
    ⟨(lexStep_quoted q typ [] hq).1, fun cs => (lexStep_quoted q typ cs hq).2⟩
  have hs : ∀ x ∈ s.data, x ≠ q ∧ x ≠ backslash := fun x hx =>
    ⟨fun h => h1 (h ▸ hx), fun h => h2 (h ▸ hx)⟩
  obtain ⟨hp1, hp2⟩ := quotedSpan_plain q hqb s.data hs
  constructor
  · rw [scanString_eq]
    simp [lexAll_cons, hstep, hp1 [], lexAll_nil]
  · rw [scanString_eq]
    simp [lexAll_cons, hstep, hp2, lexAll_nil]

/-- At the string literal of the test of the repository, `"st|st"`, and at the
unterminated `"st|st`. -/
theorem ScanQuery_quoted_literal_witness :
    scanString (String.mk (dquote :: "st|st".data ++ [dquote]))
      = some ([⟨tSTRING, String.mk (dquote :: "st|st".data ++ [dquote])⟩], none) ∧
    scanString (String.mk (dquote :: "st|st".data))
      = some ([⟨tSTRING, String.mk (dquote :: "st|st".data)⟩], none) :=
  ScanQuery_quoted_literal dquote tSTRING "st|st" (Or.inl rfl) (by decide) (by decide)

end queryprint

namespace queryprint
open tokenType

theorem identSpan_nil : identSpan [] = ([], []) := by
  simp [identSpan]

theorem identSpan_backslash (c : Char) (v : List Char) :
    identSpan (backslash :: c :: v) = (backslash :: c :: (identSpan v).1, (identSpan v).2) := by
  simp [identSpan]

theorem identSpan_plain_append (u r : List Char)
    (hu : ∀ x ∈ u, x ≠ backslash ∧ ¬ (x ∈ identTerms ∨ IsSpace x = true)) :
    identSpan (u ++ r) = (u ++ (identSpan r).1, (identSpan r).2) := by
  induction u with
  | nil => simp
  | cons a u ih =>
    have ha := hu a (List.mem_cons_self a u)
    rw [List.cons_append, identSpan_other a _ ha.1 ha.2,
      ih (fun x hx => hu x (List.mem_cons_of_mem a hx))]
    rfl

theorem lookup_none_of_not_term (a : Char) (h : a ∉ identTerms) :
    doubleCharTokens.lookup a = none ∧ singleCharTokens.lookup a = none ∧ a ≠ dquote := by
  simp only [identTerms, List.mem_cons, List.mem_singleton, List.not_mem_nil, or_false,
    not_or] at h
  obtain ⟨h1, h2, h3, h4, h5, h6, h7, h8, h9, h10, h11, h12, h13, h14, _, h16⟩ := h
  refine ⟨?_, ?_, h16⟩
  · simp [doubleCharTokens, List.lookup_eq_none_iff, h14, h3, h4, h7]
  · simp [singleCharTokens, List.lookup_eq_none_iff, h1, h2, h3, h4, h5, h6, h7, h8, h9, h10,
      h11, h12, h13]

theorem identToken_of_backslash (w : List Char) (h : backslash ∈ w) :
    identToken w = ⟨tIDENTIFIER, String.mk w⟩ := by
  unfold identToken
  cases hk : keyWords.lookup (String.mk w) with
  | none => rfl
  | some typ =>
    exfalso
    rcases keyWords_lookup_some _ _ hk with ⟨a, _⟩ | ⟨a, _⟩ | ⟨a, _⟩ | ⟨a, _⟩ <;>
      · have hw : w = (String.mk w).data := rfl
        rw [a] at hw
        rw [hw] at h
        revert h
        decide

theorem lexStep_plain (a : Char) (cs : List Char) (h1 : a ∉ identTerms)
    (h2 : IsSpace a = false) (h3 : a ≠ squote) (h4 : a ≠ backslash) :
    lexStep a cs = ⟨[identToken (identSpan (a :: cs)).1], none, (identSpan (a :: cs)).2⟩ := by
  obtain ⟨hd, hs, hq⟩ := lookup_none_of_not_term a h1
  simp [lexStep, lexAfterDouble, h4, hq, h3, hd, hs, h2]

theorem lexStep_backslash (cs : List Char) :
    lexStep backslash cs
      = ⟨[identToken (identSpan (backslash :: cs)).1], none, (identSpan (backslash :: cs)).2⟩ := by
  simp [lexStep]

theorem lexAll_escaped_identifier (c : Char) (u v : List Char)
    (hu : ∀ x ∈ u, x ∉ identTerms ∧ IsSpace x = false ∧ x ≠ squote ∧ x ≠ backslash)
    (hv : ∀ x ∈ v, x ∉ identTerms ∧ IsSpace x = false ∧ x ≠ squote ∧ x ≠ backslash) :
    lexAll (u ++ backslash :: c :: v)
      = ([⟨tIDENTIFIER, String.mk (u ++ backslash :: c :: v)⟩], none) := by
  have hu2 : ∀ x ∈ u, x ≠ backslash ∧ ¬ (x ∈ identTerms ∨ IsSpace x = true) := fun x hx =>
    ⟨(hu x hx).2.2.2, by simp [(hu x hx).1, (hu x hx).2.1]⟩
  have hv2 : ∀ x ∈ v, x ≠ backslash ∧ ¬ (x ∈ identTerms ∨ IsSpace x = true) := fun x hx =>
    ⟨(hv x hx).2.2.2, by simp [(hv x hx).1, (hv x hx).2.1]⟩
  have hv3 : identSpan v = (v, []) := by
    have := identSpan_plain_append v [] hv2
    simpa [identSpan_nil] using this
  have hspan : identSpan (u ++ backslash :: c :: v) = (u ++ backslash :: c :: v, []) := by
    rw [identSpan_plain_append u _ hu2, identSpan_backslash, hv3]
  have htok : identToken (u ++ backslash :: c :: v)
      = ⟨tIDENTIFIER, String.mk (u ++ backslash :: c :: v)⟩ :=
    identToken_of_backslash _ (by simp)
  cases u with
  | nil =>
    simp only [List.nil_append] at hspan htok ⊢
    rw [lexAll_cons, lexStep_backslash]
    simp [hspan, htok, lexAll_nil]
  | cons a u =>
    obtain ⟨h1, h2, h3, h4⟩ := hu a (List.mem_cons_self a u)
    simp only [List.cons_append] at hspan htok ⊢
    rw [lexAll_cons, lexStep_plain a _ h1 h2 h3 h4]
    simp [hspan, htok, lexAll_nil]

theorem quotedSpan_plain_append (q : Char) (a r : List Char)
    (ha : ∀ x ∈ a, x ≠ q ∧ x ≠ backslash) :
    quotedSpan q (a ++ r) = (a ++ (quotedSpan q r).1, (quotedSpan q r).2) := by
  induction a with
  | nil => simp
  | cons x a ih =>
    have hx := ha x (List.mem_cons_self x a)
    rw [List.cons_append, quotedSpan_other q x _ hx.2 hx.1,
      ih (fun y hy => ha y (List.mem_cons_of_mem x hy))]
    rfl

theorem quotedSpan_backslash (q c : Char) (v : List Char) :
    quotedSpan q (backslash :: c :: v)
      = (backslash :: c :: (quotedSpan q v).1, (quotedSpan q v).2) := by
  simp [quotedSpan]

/-- C10: a backslash escapes the code point after it. For every code point `c`
and all strings `u`, `v` free of identifier terminators, white space, quotes and
backslashes, the scan of `u`, backslash, `c`, `v` ends without error and sends
exactly one identifier token whose text is the whole input; and for all strings
`a`, `b` free of `"` and backslash, the scan of `"`, `a`, backslash, `"`, `b`,
`"` ends without error and sends exactly one string token whose text is the
whole input. -/
theorem ScanQuery_backslash_escape (c : Char) (u v a b : List Char)
    (hu : ∀ x ∈ u, x ∉ identTerms ∧ IsSpace x = false ∧ x ≠ squote ∧ x ≠ backslash)
    (hv : ∀ x ∈ v, x ∉ identTerms ∧ IsSpace x = false ∧ x ≠ squote ∧ x ≠ backslash)
    (ha : ∀ x ∈ a, x ≠ dquote ∧ x ≠ backslash)
    (hb : ∀ x ∈ b, x ≠ dquote ∧ x ≠ backslash) :
    scanString (String.mk (u ++ backslash :: c :: v))
      = some ([⟨tIDENTIFIER, String.mk (u ++ backslash :: c :: v)⟩], none) ∧
    scanString (String.mk (dquote :: a ++ backslash :: dquote :: b ++ [dquote]))
      = some ([⟨tSTRING, String.mk (dquote :: a ++ backslash :: dquote :: b ++ [dquote])⟩],
          none) := by
  constructor
  · rw [scanString_eq]
    exact congrArg some (lexAll_escaped_identifier c u v hu hv)
  · rw [scanString_eq]
    have hq : dquote ≠ backslash := by decide
    have h1 : quotedSpan dquote (a ++ backslash :: dquote :: b ++ [dquote])
        = (a ++ backslash :: dquote :: b ++ [dquote], []) := by
      have := (quotedSpan_plain dquote hq b hb).1 []
      simp only [List.append_assoc, List.cons_append]
      rw [quotedSpan_plain_append dquote a _ ha, quotedSpan_backslash]
      simp [this]
    simp only [List.cons_append, List.append_assoc] at h1 ⊢
    rw [lexAll_cons, lexStep_dquote]
    simp [h1, lexAll_nil]

/-- At `c` a space, `u = ab`, `v = cd`, and at `a = x`, `b = y`: the scan of
`ab\ cd` sends one identifier, the scan of `"x\"y"` one string. -/
theorem ScanQuery_backslash_escape_witness :
    scanString (String.mk ("ab".data ++ backslash :: ' ' :: "cd".data))
      = some ([⟨tIDENTIFIER, String.mk ("ab".data ++ backslash :: ' ' :: "cd".data)⟩], none) ∧
    scanString (String.mk (dquote :: "x".data ++ backslash :: dquote :: "y".data ++ [dquote]))
      = some ([⟨tSTRING,
          String.mk (dquote :: "x".data ++ backslash :: dquote :: "y".data ++ [dquote])⟩],
          none) :=
  ScanQuery_backslash_escape ' ' "ab".data "cd".data "x".data "y".data
    (by decide) (by decide) (by decide) (by decide)

end queryprint

namespace queryprint
open tokenType

theorem lookup_mem {β : Type} (l : List (Char × β)) (k : Char) (b : β)
    (h : l.lookup k = some b) : (k, b) ∈ l := by
  induction l with
  | nil => simp at h
  | cons p l ih =>
    obtain ⟨k1, b1⟩ := p
    by_cases hk : k = k1
    · subst hk
      simp at h
      simp [h]
    · have hk2 : (k == k1) = false := by simpa using hk
      simp only [List.lookup, hk2] at h
      exact List.mem_cons_of_mem _ (ih h)

theorem single_facts (c : Char) (typ : tokenType) (h : singleCharTokens.lookup c = some typ) :
    renderToken (token.ofTyp typ) = [c] ∧ typ ≠ tSPACE ∧ IsSpace c = false := by
  have hm := lookup_mem _ _ _ h
  have hall : ∀ p ∈ singleCharTokens,
      renderToken (token.ofTyp p.2) = [p.1] ∧ p.2 ≠ tSPACE ∧ IsSpace p.1 = false := by decide
  exact hall _ hm

theorem double_facts (c d : Char) (nc : List (Char × tokenType)) (typ : tokenType)
    (h1 : doubleCharTokens.lookup c = some nc) (h2 : nc.lookup d = some typ) :
    renderToken (token.ofTyp typ) = [c, d] ∧ typ ≠ tSPACE ∧ IsSpace c = false
      ∧ IsSpace d = false := by
  have hm1 := lookup_mem _ _ _ h1
  have hm2 := lookup_mem _ _ _ h2
  have hall : ∀ p ∈ doubleCharTokens, ∀ q ∈ p.2,
      renderToken (token.ofTyp q.2) = [p.1, q.1] ∧ q.2 ≠ tSPACE ∧ IsSpace p.1 = false
        ∧ IsSpace q.1 = false := by decide
  exact hall _ hm1 _ hm2

theorem identToken_facts (w : List Char) :
    renderToken (identToken w) = w ∧ (identToken w).typ ≠ tSPACE := by
  unfold identToken
  cases hk : keyWords.lookup (String.mk w) with
  | none => exact ⟨rfl, by simp⟩
  | some typ =>
    have hw : w = (String.mk w).data := rfl
    rcases keyWords_lookup_some _ _ hk with ⟨a, b⟩ | ⟨a, b⟩ | ⟨a, b⟩ | ⟨a, b⟩ <;>
      · rw [a] at hw
        subst hw
        subst b
        exact ⟨rfl, by decide⟩

theorem identSpan_append (n : Nat) : ∀ l : List Char, l.length ≤ n →
    (identSpan l).1 ++ (identSpan l).2 = l := by
  induction n with
  | zero =>
    intro l h
    have : l = [] := List.length_eq_zero.mp (Nat.le_zero.mp h)
    subst this
    simp [identSpan]
  | succ n ih =>
    intro l h
    cases l with
    | nil => simp [identSpan]
    | cons c cs =>
      simp only [List.length_cons, Nat.add_le_add_iff_right] at h
      by_cases hb : c = backslash
      · subst hb
        cases cs with
        | nil => simp [identSpan]
        | cons d ds =>
          have := ih ds (by simp only [List.length_cons] at h; omega)
          simp [identSpan_backslash, this]
      · by_cases ht : c ∈ identTerms ∨ IsSpace c = true
        · rw [identSpan_term c cs hb ht]
          rfl
        · rw [identSpan_other c cs hb ht]
          simp [ih cs h]

theorem quotedSpan_append (q : Char) (n : Nat) : ∀ l : List Char, l.length ≤ n →
    (quotedSpan q l).1 ++ (quotedSpan q l).2 = l := by
  induction n with
  | zero =>
    intro l h
    have : l = [] := List.length_eq_zero.mp (Nat.le_zero.mp h)
    subst this
    simp [quotedSpan]
  | succ n ih =>
    intro l h
    cases l with
    | nil => simp [quotedSpan]
    | cons c cs =>
      simp only [List.length_cons, Nat.add_le_add_iff_right] at h
      by_cases hb : c = backslash
      · subst hb
        cases cs with
        | nil => simp [quotedSpan]
        | cons d ds =>
          have := ih ds (by simp only [List.length_cons] at h; omega)
          simp [quotedSpan_backslash, this]
      · by_cases ht : c = q
        · rw [quotedSpan_term q c cs hb ht]
          rfl
        · rw [quotedSpan_other q c cs hb ht]
          simp [ih cs h]

theorem identSpan_no_space (l : List Char) (hb : backslash ∉ l) :
    ∀ x ∈ (identSpan l).1, IsSpace x = false := by
  induction l with
  | nil => simp [identSpan]
  | cons c cs ih =>
    have hc : c ≠ backslash := fun h => hb (h ▸ List.mem_cons_self c cs)
    have hcs : backslash ∉ cs := fun h => hb (List.mem_cons_of_mem c h)
    by_cases ht : c ∈ identTerms ∨ IsSpace c = true
    · rw [identSpan_term c cs hc ht]
      simp
    · rw [identSpan_other c cs hc ht]
      intro x hx
      simp only [List.mem_cons] at hx
      rcases hx with hx | hx
      · subst hx
        simpa using fun h => ht (Or.inr h)
      · exact ih hcs x hx

/-- One iteration of `parse` that records no error either collapses the run of
white space it stands on to the token `tSPACE`, or sends one token whose
rendering is exactly the text it has read. -/
theorem lexStep_decomp (c : Char) (r : List Char) (he : (lexStep c r).err = none) :
    ((lexStep c r).toks = [token.ofTyp tSPACE] ∧ IsSpace c = true
        ∧ (lexStep c r).rest = r.dropWhile IsSpace) ∨
    (∃ t, (lexStep c r).toks = [t] ∧ t.typ ≠ tSPACE
        ∧ renderToken t ++ (lexStep c r).rest = c :: r
        ∧ (backslash ∉ c :: r → c ≠ dquote → c ≠ squote →
            ∀ x ∈ renderToken t, IsSpace x = false)) := by
  have hI : ∀ l : List Char, ∃ t, [identToken (identSpan l).1] = [t] ∧ t.typ ≠ tSPACE
      ∧ renderToken t ++ (identSpan l).2 = l
      ∧ (backslash ∉ l → ∀ x ∈ renderToken t, IsSpace x = false) := fun l =>
    ⟨_, rfl, (identToken_facts _).2, by
      rw [(identToken_facts _).1]; exact identSpan_append _ l (Nat.le_refl _), by
      rw [(identToken_facts _).1]; exact identSpan_no_space l⟩
  have hA : ∀ b, (lexAfterDouble c r b).err = none →
      ((lexAfterDouble c r b).toks = [token.ofTyp tSPACE] ∧ IsSpace c = true
        ∧ (lexAfterDouble c r b).rest = r.dropWhile IsSpace) ∨
      (∃ t, (lexAfterDouble c r b).toks = [t] ∧ t.typ ≠ tSPACE
        ∧ renderToken t ++ (lexAfterDouble c r b).rest = c :: r
        ∧ (backslash ∉ c :: r → c ≠ dquote → c ≠ squote →
            ∀ x ∈ renderToken t, IsSpace x = false)) := by
    intro b hb
    unfold lexAfterDouble at hb ⊢
    cases hs : singleCharTokens.lookup c with
    | some typ =>
      obtain ⟨f1, f2, f3⟩ := single_facts c typ hs
      exact Or.inr ⟨_, rfl, f2, by simp [f1], by simp [f1, f3]⟩
    | none =>
      simp only [hs] at hb
      by_cases hsp : IsSpace c = true
      · exact Or.inl (by simp [hsp])
      · cases b with
        | true => simp [hsp] at hb
        | false =>
          simp only [hsp, Bool.false_eq_true, if_false]
          obtain ⟨t, g1, g2, g3, g4⟩ := hI (c :: r)
          exact Or.inr ⟨t, g1, g2, g3, fun hb _ _ => g4 hb⟩
  by_cases h1 : c = backslash
  · subst h1
    rw [lexStep_backslash]
    obtain ⟨t, g1, g2, g3, g4⟩ := hI (backslash :: r)
    exact Or.inr ⟨t, g1, g2, g3, fun hb _ _ => g4 hb⟩
  by_cases h2 : c = dquote
  · subst h2
    rw [lexStep_dquote]
    refine Or.inr ⟨_, rfl, by simp, ?_, fun _ h => absurd rfl h⟩
    have := quotedSpan_append dquote _ r (Nat.le_refl _)
    simp [renderToken, this]
  by_cases h3 : c = squote
  · subst h3
    rw [lexStep_squote]
    refine Or.inr ⟨_, rfl, by simp, ?_, fun _ _ h => absurd rfl h⟩
    have := quotedSpan_append squote _ r (Nat.le_refl _)
    simp [renderToken, this]
  unfold lexStep at he ⊢
  simp only [h1, h2, h3, if_false] at he ⊢
  cases hD : doubleCharTokens.lookup c with
  | none =>
    simp only [hD] at he
    exact hA false he
  | some nc =>
    simp only [hD] at he
    cases r with
    | nil => exact hA true he
    | cons d ds =>
      cases hn : nc.lookup d with
      | some typ =>
        obtain ⟨f1, f2, f3, f4⟩ := double_facts c d nc typ hD hn
        exact Or.inr ⟨token.ofTyp typ, by simp [hn], f2, by simp [hn, f1],
          by simp [f1, f3, f4]⟩
      | none =>
        simp only [hn] at he
        simpa [hn] using hA true he

theorem renderTokens_append (a b : List token) :
    renderTokens (a ++ b) = renderTokens a ++ renderTokens b := by
  induction a with
  | nil => rfl
  | cons t a ih => simp [renderTokens, ih]

theorem collapseFrom_cons (b : Bool) (c : Char) (cs : List Char) :
    collapseFrom b (c :: cs) =
      if IsSpace c then
        if b then collapseFrom true cs else ' ' :: collapseFrom true cs
      else c :: collapseFrom false cs := rfl

theorem collapseFrom_append_congr (x y : List Char)
    (h : ∀ b, collapseFrom b x = collapseFrom b y) (w : List Char) :
    ∀ b, collapseFrom b (w ++ x) = collapseFrom b (w ++ y) := by
  induction w with
  | nil => exact h
  | cons a w ih =>
    intro b
    rw [List.cons_append, List.cons_append, collapseFrom_cons, collapseFrom_cons, ih true,
      ih false]

theorem collapseFrom_true_dropWhile (l : List Char) :
    collapseFrom true l = collapseFrom true (l.dropWhile IsSpace) := by
  induction l with
  | nil => rfl
  | cons a l ih =>
    by_cases ha : IsSpace a = true
    · simp [collapseFrom_cons, List.dropWhile, ha, ih]
    · simp [List.dropWhile, ha]

theorem lexAll_collapse (n : Nat) : ∀ cs : List Char, cs.length ≤ n → (lexAll cs).2 = none →
    ∀ b, collapseFrom b (renderTokens (lexAll cs).1) = collapseFrom b cs := by
  induction n with
  | zero =>
    intro cs h _ b
    have : cs = [] := List.length_eq_zero.mp (Nat.le_zero.mp h)
    subst this
    simp [lexAll_nil, renderTokens]
  | succ n ih =>
    intro cs h he b
    cases cs with
    | nil => simp [lexAll_nil, renderTokens]
    | cons c r =>
      simp only [List.length_cons, Nat.add_le_add_iff_right] at h
      rw [lexAll_cons] at he ⊢
      cases hs : (lexStep c r).err with
      | some e => simp [hs] at he
      | none =>
        simp only [hs] at he ⊢
        have hrec := ih (lexStep c r).rest (Nat.le_trans (lexStep_rest_le c r) h) he
        rw [renderTokens_append]
        rcases lexStep_decomp c r hs with ⟨h1, h2, h3⟩ | ⟨t, h1, _, h3⟩
        · have hsp : IsSpace ' ' = true := by decide
          have ht : renderTokens [token.ofTyp tSPACE] = [' '] := rfl
          rw [h1, ht, List.singleton_append, collapseFrom_cons, collapseFrom_cons]
          simp only [hsp, h2, if_true]
          rw [hrec true, h3, ← collapseFrom_true_dropWhile]
        · obtain ⟨h3, _⟩ := h3
          have ht : renderTokens [t] = renderToken t := by simp [renderTokens]
          rw [h1, ht]
          rw [collapseFrom_append_congr _ _ hrec (renderToken t) b, h3]

/-- C5 as stated fails: the input `"a  b"`, a string literal with two spaces and
no nested quote, scans without error to the one token whose text is the whole
input; its rendering is the input, with both spaces, and not the input with the
run collapsed to one space. -/
theorem ScanQuery_render_not_collapsed :
    scanString "\"a  b\"" = some ([⟨tSTRING, "\"a  b\""⟩], none) ∧
    renderTokens [⟨tSTRING, "\"a  b\""⟩] = "\"a  b\"".data ∧
    collapse "\"a  b\"".data = "\"a b\"".data ∧
    renderTokens [⟨tSTRING, "\"a  b\""⟩] ≠ collapse "\"a  b\"".data := by
  decide

end queryprint

namespace queryprint
open tokenType

theorem wsRunsFrom_cons (b : Bool) (c : Char) (cs : List Char) :
    wsRunsFrom b (c :: cs) =
      if IsSpace c then (if b then 0 else 1) + wsRunsFrom true cs
      else wsRunsFrom false cs := rfl

theorem wsRunsFrom_true_dropWhile (l : List Char) :
    wsRunsFrom true l = wsRunsFrom false (l.dropWhile IsSpace) := by
  induction l with
  | nil => rfl
  | cons a l ih =>
    by_cases ha : IsSpace a = true
    · simp [wsRunsFrom_cons, List.dropWhile, ha, ih]
    · simp [wsRunsFrom_cons, List.dropWhile, ha]

theorem wsRunsFrom_nonspace_append (w x : List Char) (hw : ∀ a ∈ w, IsSpace a = false) :
    wsRunsFrom false (w ++ x) = wsRunsFrom false x := by
  induction w with
  | nil => rfl
  | cons a w ih =>
    have ha := hw a (List.mem_cons_self a w)
    rw [List.cons_append, wsRunsFrom_cons]
    simp [ha, ih (fun y hy => hw y (List.mem_cons_of_mem a hy))]

theorem countSpaceTokens_cons (t : token) (ts : List token) :
    countSpaceTokens (t :: ts) = (if t.typ = tSPACE then 1 else 0) + countSpaceTokens ts := by
  by_cases h : t.typ = tSPACE
  · simp [countSpaceTokens, List.countP_cons, h, Nat.add_comm]
  · simp [countSpaceTokens, List.countP_cons, h]

theorem lexAll_space_runs (n : Nat) : ∀ cs : List Char, cs.length ≤ n →
    (∀ x ∈ cs, x ≠ backslash ∧ x ≠ dquote ∧ x ≠ squote) → (lexAll cs).2 = none →
    countSpaceTokens (lexAll cs).1 = wsRunsFrom false cs := by
  induction n with
  | zero =>
    intro cs h _ _
    have : cs = [] := List.length_eq_zero.mp (Nat.le_zero.mp h)
    subst this
    simp [lexAll_nil, countSpaceTokens, wsRunsFrom]
  | succ n ih =>
    intro cs h hp he
    cases cs with
    | nil => simp [lexAll_nil, countSpaceTokens, wsRunsFrom]
    | cons c r =>
      simp only [List.length_cons, Nat.add_le_add_iff_right] at h
      rw [lexAll_cons] at he ⊢
      cases hs : (lexStep c r).err with
      | some e => simp [hs] at he
      | none =>
        simp only [hs] at he ⊢
        have hlen := Nat.le_trans (lexStep_rest_le c r) h
        rcases lexStep_decomp c r hs with ⟨h1, h2, h3⟩ | ⟨t, h1, h2, h3, h4⟩
        · have hsub : ∀ x ∈ (lexStep c r).rest, x ≠ backslash ∧ x ≠ dquote ∧ x ≠ squote := by
            intro x hx
            rw [h3] at hx
            exact hp x (List.mem_cons_of_mem c ((List.dropWhile_sublist _).subset hx))
          have hrec := ih _ hlen hsub he
          rw [h1, List.singleton_append, countSpaceTokens_cons, hrec, wsRunsFrom_cons, h3,
            wsRunsFrom_true_dropWhile]
          simp [h2, token.ofTyp]
        · have hsub : ∀ x ∈ (lexStep c r).rest, x ≠ backslash ∧ x ≠ dquote ∧ x ≠ squote := by
            intro x hx
            apply hp x
            rw [← h3]
            exact List.mem_append_right _ hx
          have hrec := ih _ hlen hsub he
          have hb : backslash ∉ c :: r := fun hm => (hp _ hm).1 rfl
          have hc := hp c (List.mem_cons_self c r)
          have hns := h4 hb hc.2.1 hc.2.2
          rw [h1, List.singleton_append, countSpaceTokens_cons, hrec, ← h3,
            wsRunsFrom_nonspace_append _ _ hns]
          simp [h2]

theorem lexStep_space_value (c : Char) (cs : List Char) :
    ∀ t ∈ (lexStep c cs).toks, t.typ = tSPACE → t.value = "" := by
  intro t ht hty
  rcases lexStep_value c cs t ht with h | h | h | ⟨w, h⟩
  · exact h
  · rw [h] at hty; exact absurd hty (by decide)
  · rw [h] at hty; exact absurd hty (by decide)
  · subst h
    exact absurd hty (identToken_facts w).2

theorem wsRunsFrom_le_append (x : List Char) (w : List Char) :
    ∀ b : Bool, wsRunsFrom false x ≤ (if b then 1 else 0) + wsRunsFrom b (w ++ x) := by
  induction w with
  | nil =>
    intro b
    cases x with
    | nil => simp [wsRunsFrom]
    | cons c xs =>
      simp only [List.nil_append, wsRunsFrom_cons]
      by_cases hc : IsSpace c = true
      · cases b <;> simp [hc]
      · cases b <;> simp [hc]
  | cons a w ih =>
    intro b
    rw [List.cons_append, wsRunsFrom_cons]
    by_cases ha : IsSpace a = true
    · have := ih true
      cases b <;> simp [ha] <;> simp at this <;> omega
    · have := ih false
      cases b <;> simp [ha] <;> simp at this <;> omega

theorem lexStep_err_toks (c : Char) (r : List Char) (e : String)
    (he : (lexStep c r).err = some e) : (lexStep c r).toks = [] := by
  have hA : ∀ b, (lexAfterDouble c r b).err = some e → (lexAfterDouble c r b).toks = [] := by
    intro b hb
    unfold lexAfterDouble at hb ⊢
    cases hs : singleCharTokens.lookup c with
    | some typ => simp [hs] at hb
    | none =>
      simp only [hs] at hb
      by_cases hsp : IsSpace c = true
      · simp [hsp] at hb
      · cases b with
        | true => simp [hsp]
        | false => simp [hsp] at hb
  by_cases h1 : c = backslash
  · subst h1
    rw [lexStep_backslash] at he
    simp at he
  by_cases h2 : c = dquote
  · subst h2
    rw [lexStep_dquote] at he
    simp at he
  by_cases h3 : c = squote
  · subst h3
    rw [lexStep_squote] at he
    simp at he
  unfold lexStep at he ⊢
  simp only [h1, h2, h3, if_false] at he ⊢
  cases hD : doubleCharTokens.lookup c with
  | none =>
    simp only [hD] at he
    exact hA false he
  | some nc =>
    simp only [hD] at he
    cases r with
    | nil => exact hA true he
    | cons d ds =>
      cases hn : nc.lookup d with
      | some typ => simp [hn] at he
      | none =>
        simp only [hn] at he
        simpa [hn] using hA true he

theorem lexAll_space_le (n : Nat) : ∀ cs : List Char, cs.length ≤ n →
    countSpaceTokens (lexAll cs).1 ≤ wsRunsFrom false cs := by
  induction n with
  | zero =>
    intro cs h
    have : cs = [] := List.length_eq_zero.mp (Nat.le_zero.mp h)
    subst this
    simp [lexAll_nil, countSpaceTokens]
  | succ n ih =>
    intro cs h
    cases cs with
    | nil => simp [lexAll_nil, countSpaceTokens]
    | cons c r =>
      simp only [List.length_cons, Nat.add_le_add_iff_right] at h
      rw [lexAll_cons]
      cases hs : (lexStep c r).err with
      | some e => simp [lexStep_err_toks c r e hs, countSpaceTokens]
      | none =>
        simp only []
        have hrec := ih _ (Nat.le_trans (lexStep_rest_le c r) h)
        rcases lexStep_decomp c r hs with ⟨h1, h2, h3⟩ | ⟨t, h1, h2, h3, _⟩
        · rw [h1, List.singleton_append, countSpaceTokens_cons, wsRunsFrom_cons,
            wsRunsFrom_true_dropWhile, ← h3]
          simp [h2, token.ofTyp, hrec]
        · have hm := wsRunsFrom_le_append (lexStep c r).rest (renderToken t) false
          rw [h3] at hm
          rw [h1, List.singleton_append, countSpaceTokens_cons]
          simp only [h2, if_false, Nat.zero_add]
          simp only [Bool.false_eq_true, if_false, Nat.zero_add] at hm
          exact Nat.le_trans hrec hm

/-- C6 as stated fails: the input `"a b"`, a string literal, has one maximal run
of white space, and the scanner sends the one token of the literal and no
`tSPACE` token. -/
theorem ScanQuery_space_in_literal :
    scanString "\"a b\"" = some ([⟨tSTRING, "\"a b\""⟩], none) ∧
    wsRuns "\"a b\"".data = 1 ∧
    countSpaceTokens [⟨tSTRING, "\"a b\""⟩] = 0 ∧
    countSpaceTokens [⟨tSTRING, "\"a b\""⟩] ≠ wsRuns "\"a b\"".data := by
  decide

end queryprint

/-! ## Theorems: errors of the parser -/

namespace queryprint
open tokenType

theorem parser_advance_stopped (p : parser) (h : p.stop = true) : p.advance = (false, p) := by
  simp [parser.advance, h]

theorem advanceLoop_drain (n : Nat) : ∀ p : parser, p.input.length < n →
    ∃ p1, parser.advanceLoop n p = some p1 ∧ p1.stop = true ∧ p1.err = p.err
      ∧ p1.input = (if p.stop then p.input else afterEOF p.input) := by
  induction n with
  | zero => intro p h; simp at h
  | succ n ih =>
    intro p h
    obtain ⟨inp, cur, err, stop⟩ := p
    cases stop with
    | true => exact ⟨_, by simp [parser.advanceLoop, parser.advance], rfl, rfl, rfl⟩
    | false =>
      cases inp with
      | nil =>
        exact ⟨⟨[], token.zero, err, true⟩,
          by simp [parser.advanceLoop, parser.advance, token.zero], rfl, rfl, rfl⟩
      | cons t ts =>
        simp only [List.length_cons, Nat.add_lt_add_iff_right] at h
        by_cases ht : t.typ = tEOF
        · exact ⟨⟨ts, t, err, true⟩, by simp [parser.advanceLoop, parser.advance, ht], rfl, rfl,
            by simp [afterEOF, ht]⟩
        · obtain ⟨p1, h1, h2, h3, h4⟩ := ih ⟨ts, t, err, false⟩ h
          exact ⟨p1, by simp [parser.advanceLoop, parser.advance, ht, h1], h2, h3,
            by simpa [afterEOF, ht] using h4⟩

theorem error_spec (p : parser) (msg : String) (h : p.err = none) :
    ∃ p1, p.error msg = some p1 ∧ p1.stop = true ∧ p1.err = some msg
      ∧ p1.input = (if p.stop then p.input else afterEOF p.input) := by
  obtain ⟨p1, h1, h2, h3, h4⟩ :=
    advanceLoop_drain (p.input.length + 1) { p with err := some msg } (Nat.lt_succ_self _)
  exact ⟨p1, by simp [parser.error, h, h1], h2, h3, h4⟩

theorem command_not_identifier (c : cmdParsers) (n : Nat) (p : parser) (h : p.err = none)
    (ht : p.current.typ ≠ tIDENTIFIER) :
    ∃ p1, parser.command c n p = some (command.zero, p1) ∧ p1.stop = true
      ∧ p1.err = some expectedCommand := by
  obtain ⟨p1, h1, h2, h3, _⟩ := error_spec p expectedCommand h
  refine ⟨p1, ?_, h2, h3⟩
  simp only [expectedCommand] at h1
  simp [parser.command, parser.expect, parser.advanceIf, parser.currentIs, ht, h1]

theorem queryLoop_stopped (c : cmdParsers) (n : Nat) (p : parser) (cmd : command) (q : query)
    (h : p.stop = true) : parser.queryLoop c (n + 1) p cmd q = some (q, p) := by
  simp [parser.queryLoop, h]

/-- C11: a token that is not an identifier where a command is expected. For
every token sequence that is empty or starts with a token that is not an
identifier, `ParseQuery` returns the empty query and the error `Expected Splunk
command after '|' and in query beginning`; and for the tokens `eval`, `|`
followed by a sequence that is empty or starts with a token that is not an
identifier, it returns the same error, with the query that holds the command
`eval`. -/
theorem ParseQuery_expected_command (c : cmdParsers) (n : Nat) (toks rest : List token)
    (h1 : toks = [] ∨ ∃ t ts, toks = t :: ts ∧ t.typ ≠ tIDENTIFIER)
    (h2 : rest = [] ∨ ∃ t ts, rest = t :: ts ∧ t.typ ≠ tIDENTIFIER) :
    ParseQuery c (n + 1) toks
      = some ([], some "Expected Splunk command after '|' and in query beginning") ∧
    ParseQuery c (n + 2) (⟨tIDENTIFIER, "eval"⟩ :: ⟨tPIPE, ""⟩ :: rest)
      = some ([command.mk "eval" (some (visitable.ofCommaSepArgs []))],
          some "Expected Splunk command after '|' and in query beginning") := by
  constructor
  · have hcur : (parser.mk toks token.zero none false).advance.2.current.typ ≠ tIDENTIFIER := by
      rcases h1 with h | ⟨t, ts, h, ht⟩ <;> subst h
      · simp [parser.advance, token.zero]
      · by_cases he : t.typ = tEOF <;> simp [parser.advance, he, ht]
    have herr : (parser.mk toks token.zero none false).advance.2.err = none := by
      simp only [parser.advance]
      split <;> simp
      split <;> rfl
    obtain ⟨p1, hc, hs, he⟩ := command_not_identifier c (n + 1) _ herr hcur
    simp only [ParseQuery, parser.query, hc, queryLoop_stopped c n p1 _ _ hs, hs]
    simp [he, expectedCommand]
  · have hcur : (parser.mk rest ⟨tPIPE, ""⟩ none false).advance.2.current.typ ≠ tIDENTIFIER := by
      rcases h2 with h | ⟨t, ts, h, ht⟩ <;> subst h
      · simp [parser.advance, token.zero]
      · by_cases he : t.typ = tEOF <;> simp [parser.advance, he, ht]
    have herr : (parser.mk rest ⟨tPIPE, ""⟩ none false).advance.2.err = none := by
      simp only [parser.advance]
      split <;> simp
      split <;> rfl
    obtain ⟨p1, hc, hs, he⟩ := command_not_identifier c (n + 1) _ herr hcur
    have hcmd : parser.command c (n + 2) ⟨⟨tPIPE, ""⟩ :: rest, ⟨tIDENTIFIER, "eval"⟩, none, false⟩
        = some (emptyEval, ⟨rest, ⟨tPIPE, ""⟩, none, false⟩) := rfl
    have hinit : (parser.mk (⟨tIDENTIFIER, "eval"⟩ :: ⟨tPIPE, ""⟩ :: rest) token.zero none
        false).advance.2 = ⟨⟨tPIPE, ""⟩ :: rest, ⟨tIDENTIFIER, "eval"⟩, none, false⟩ := rfl
    have hadv : (parser.mk rest ⟨tPIPE, ""⟩ none false).advanceIf tPIPE
        = (true, (parser.mk rest ⟨tPIPE, ""⟩ none false).advance.2) := rfl
    simp only [ParseQuery, hinit, parser.query, hcmd]
    rw [parser.queryLoop]
    simp only [hadv, Bool.not_false, Bool.not_true, if_true, Bool.false_eq_true, if_false, hc,
      queryLoop_stopped c n p1 _ _ hs, hs]
    simp [he, expectedCommand, emptyEval]

/-- At the tokens `|`, `x`, which start with a token that is not an identifier,
and at the tokens `eval`, `|`, `=`. -/
theorem ParseQuery_expected_command_witness :
    ParseQuery noCmds 1 [⟨tPIPE, ""⟩, ⟨tIDENTIFIER, "x"⟩]
      = some ([], some "Expected Splunk command after '|' and in query beginning") ∧
    ParseQuery noCmds 2 [⟨tIDENTIFIER, "eval"⟩, ⟨tPIPE, ""⟩, ⟨tEQUAL, ""⟩]
      = some ([command.mk "eval" (some (visitable.ofCommaSepArgs []))],
          some "Expected Splunk command after '|' and in query beginning") :=
  ParseQuery_expected_command noCmds 0 [⟨tPIPE, ""⟩, ⟨tIDENTIFIER, "x"⟩] [⟨tEQUAL, ""⟩]
    (Or.inr ⟨_, _, rfl, by decide⟩) (Or.inr ⟨_, _, rfl, by decide⟩)

end queryprint

/-! ## Theorems: the expressions of `eval` -/

namespace queryprint
open tokenType

/-- On a token that is none of `,`, `|`, `)`, `(`, the loop of `evalExpr` takes
the empty `else` branch and goes round without reading: no amount of fuel lets
it return. -/
theorem evalExpr_bare_token (n : Nat) : ∀ (p : parser) (elements : exprElements),
    p.stop = false → p.current.typ ≠ tCOMMA → p.current.typ ≠ tPIPE →
    p.current.typ ≠ tRIGHT_PAREN → p.current.typ ≠ tLEFT_PAREN →
    parser.evalExpr n p elements = none := by
  induction n with
  | zero => intro p elements _ _ _ _ _; rfl
  | succ n ih =>
    intro p elements h1 h2 h3 h4 h5
    rw [parser.evalExpr]
    simp [h1, parser.currentIs, parser.advanceIf, h2, h3, h4, h5, ih p elements h1 h2 h3 h4 h5]

theorem evalCmdLoop_bare_token (n : Nat) (p : parser) (cmdArgs : commaSepArgs)
    (h0 : p.stop = false) (h1 : (p.advanceIf tSPACE).2.stop = false)
    (h2 : (p.advanceIf tSPACE).2.current.typ ≠ tCOMMA)
    (h3 : (p.advanceIf tSPACE).2.current.typ ≠ tPIPE)
    (h4 : (p.advanceIf tSPACE).2.current.typ ≠ tRIGHT_PAREN)
    (h5 : (p.advanceIf tSPACE).2.current.typ ≠ tLEFT_PAREN) :
    parser.evalCmdLoop n p cmdArgs = none := by
  cases n with
  | zero => rfl
  | succ n =>
    rw [parser.evalCmdLoop]
    simp [h0, parser.currentIs, h3, evalExpr_bare_token n _ [] h1 h2 h3 h4 h5]

theorem ParseQuery_eval_diverges (c : cmdParsers) (n : Nat) (rest : List token)
    (h1 : ((parser.mk rest ⟨tIDENTIFIER, "eval"⟩ none false).advance.2.advanceIf tSPACE).2.stop
      = false)
    (h0 : (parser.mk rest ⟨tIDENTIFIER, "eval"⟩ none false).advance.2.stop = false)
    (h2 : ((parser.mk rest ⟨tIDENTIFIER, "eval"⟩ none false).advance.2.advanceIf
      tSPACE).2.current.typ ≠ tCOMMA)
    (h3 : ((parser.mk rest ⟨tIDENTIFIER, "eval"⟩ none false).advance.2.advanceIf
      tSPACE).2.current.typ ≠ tPIPE)
    (h4 : ((parser.mk rest ⟨tIDENTIFIER, "eval"⟩ none false).advance.2.advanceIf
      tSPACE).2.current.typ ≠ tRIGHT_PAREN)
    (h5 : ((parser.mk rest ⟨tIDENTIFIER, "eval"⟩ none false).advance.2.advanceIf
      tSPACE).2.current.typ ≠ tLEFT_PAREN) :
    ParseQuery c n (⟨tIDENTIFIER, "eval"⟩ :: rest) = none := by
  have hinit : (parser.mk (⟨tIDENTIFIER, "eval"⟩ :: rest) token.zero none false).advance.2
      = ⟨rest, ⟨tIDENTIFIER, "eval"⟩, none, false⟩ := rfl
  have hexp : (parser.mk rest ⟨tIDENTIFIER, "eval"⟩ none false).expect tIDENTIFIER
      "Expected Splunk command after '|' and in query beginning"
      = some ((⟨tIDENTIFIER, "eval"⟩, true),
          (parser.mk rest ⟨tIDENTIFIER, "eval"⟩ none false).advance.2) := rfl
  simp only [ParseQuery, hinit, parser.query, parser.command, hexp, parser.evalCmd,
    evalCmdLoop_bare_token n _ [] h0 h1 h2 h3 h4 h5]
  simp

theorem evalExpr_elements (n : Nat) : ∀ (p p1 : parser) (elements r : exprElements),
    parser.evalExpr n p elements = some (r, p1) → r = elements := by
  induction n with
  | zero => intro p p1 elements r h; simp [parser.evalExpr] at h
  | succ n ih =>
    intro p p1 elements r h
    rw [parser.evalExpr] at h
    split at h
    · dsimp only at h
      split at h
      · split at h
        · simp at h
        · split at h
          · simp only [Option.map_eq_some'] at h
            obtain ⟨_, _, h⟩ := h
            simp only [Prod.mk.injEq] at h
            exact h.1.symm
          · split at h
            · simp only [Option.map_eq_some'] at h
              obtain ⟨_, _, h⟩ := h
              simp only [Prod.mk.injEq] at h
              exact h.1.symm
            · exact ih _ _ _ _ h
      · exact ih _ _ _ _ h
    · simp only [Option.some.injEq, Prod.mk.injEq] at h
      exact h.1.symm

/-- C12: empty parentheses in an `eval` command. On the tokens of `eval ()` the
parser returns an error, but the error is `Found unbalanced parentheses`: the
`)` that closes the parentheses is taken for the error case, before the test of
the empty expression is reached. On the tokens of `eval x=()` the parser never
returns: no amount of fuel gives a result, the loop of `evalExpr` goes round on
the token `x` without reading. -/
theorem ParseQuery_empty_parentheses (c : cmdParsers) (n : Nat) :
    scanString "eval ()" = some ([⟨tIDENTIFIER, "eval"⟩, ⟨tSPACE, ""⟩, ⟨tLEFT_PAREN, ""⟩,
      ⟨tRIGHT_PAREN, ""⟩], none) ∧
    ParseQuery c (n + 3) [⟨tIDENTIFIER, "eval"⟩, ⟨tSPACE, ""⟩, ⟨tLEFT_PAREN, ""⟩,
      ⟨tRIGHT_PAREN, ""⟩] = some ([], some "Found unbalanced parentheses") ∧
    scanString "eval x=()" = some ([⟨tIDENTIFIER, "eval"⟩, ⟨tSPACE, ""⟩, ⟨tIDENTIFIER, "x"⟩,
      ⟨tEQUAL, ""⟩, ⟨tLEFT_PAREN, ""⟩, ⟨tRIGHT_PAREN, ""⟩], none) ∧
    ParseQuery c n [⟨tIDENTIFIER, "eval"⟩, ⟨tSPACE, ""⟩, ⟨tIDENTIFIER, "x"⟩, ⟨tEQUAL, ""⟩,
      ⟨tLEFT_PAREN, ""⟩, ⟨tRIGHT_PAREN, ""⟩] = none := by
  refine ⟨by decide, rfl, by decide, ?_⟩
  exact ParseQuery_eval_diverges c n _ rfl rfl (by decide) (by decide) (by decide) (by decide)

/-- C13: a `(` without its `)`. On the tokens of `eval x=(1+2`, and on those of
`eval (1+2`, the parser never returns: no amount of fuel gives a result, error
or not, because the loop of `evalExpr` goes round on the first token that is
none of `(`, `)`, `,`, `|`. On the tokens of `eval (`, where nothing follows
the `(`, it does return, with the error `Expected expression inside
parentheses`. -/
theorem ParseQuery_unbalanced_diverges (c : cmdParsers) (n : Nat) :
    scanString "eval x=(1+2" = some ([⟨tIDENTIFIER, "eval"⟩, ⟨tSPACE, ""⟩, ⟨tIDENTIFIER, "x"⟩,
      ⟨tEQUAL, ""⟩, ⟨tLEFT_PAREN, ""⟩, ⟨tIDENTIFIER, "1"⟩, ⟨tPLUS, ""⟩, ⟨tIDENTIFIER, "2"⟩],
      none) ∧
    ParseQuery c n [⟨tIDENTIFIER, "eval"⟩, ⟨tSPACE, ""⟩, ⟨tIDENTIFIER, "x"⟩, ⟨tEQUAL, ""⟩,
      ⟨tLEFT_PAREN, ""⟩, ⟨tIDENTIFIER, "1"⟩, ⟨tPLUS, ""⟩, ⟨tIDENTIFIER, "2"⟩] = none ∧
    ParseQuery c n [⟨tIDENTIFIER, "eval"⟩, ⟨tSPACE, ""⟩, ⟨tLEFT_PAREN, ""⟩, ⟨tIDENTIFIER, "1"⟩,
      ⟨tPLUS, ""⟩, ⟨tIDENTIFIER, "2"⟩] = none ∧
    ParseQuery c (n + 3) [⟨tIDENTIFIER, "eval"⟩, ⟨tSPACE, ""⟩, ⟨tLEFT_PAREN, ""⟩]
      = some ([], some "Expected expression inside parentheses") := by
  refine ⟨by decide, ?_, ?_, rfl⟩
  · exact ParseQuery_eval_diverges c n _ rfl rfl (by decide) (by decide) (by decide) (by decide)
  · have hinner : ∀ m, parser.evalExpr m
        ⟨[⟨tPLUS, ""⟩, ⟨tIDENTIFIER, "2"⟩], ⟨tIDENTIFIER, "1"⟩, none, false⟩ [] = none :=
      fun m => evalExpr_bare_token m _ [] rfl (by decide) (by decide) (by decide) (by decide)
    have hexpr : ∀ m, parser.evalExpr m
        ⟨[⟨tIDENTIFIER, "1"⟩, ⟨tPLUS, ""⟩, ⟨tIDENTIFIER, "2"⟩], ⟨tLEFT_PAREN, ""⟩, none, false⟩ []
        = none := by
      intro m
      cases m with
      | zero => rfl
      | succ m =>
        rw [parser.evalExpr]
        simp [parser.currentIs, parser.advanceIf, parser.advance, hinner m]
    cases n with
    | zero => rfl
    | succ n =>
      simp [ParseQuery, parser.query, parser.command, parser.expect, parser.advanceIf,
        parser.currentIs, parser.advance, parser.evalCmd, parser.evalCmdLoop, hexpr n]

/-- C14: a bare token in the expression of `eval`. On the tokens `eval`, white
space, `x`, and with `=` in the place of `x`, the parser never returns: no
amount of fuel gives a result. `evalExpr` has no code that reads a token into a
`plainArg`: whenever it returns, the expression it returns is the one it was
started with, and it is started with the empty one. -/
theorem ParseQuery_bare_token_diverges (c : cmdParsers) (n : Nat) :
    scanString "eval x" = some ([⟨tIDENTIFIER, "eval"⟩, ⟨tSPACE, ""⟩, ⟨tIDENTIFIER, "x"⟩],
      none) ∧
    ParseQuery c n [⟨tIDENTIFIER, "eval"⟩, ⟨tSPACE, ""⟩, ⟨tIDENTIFIER, "x"⟩] = none ∧
    ParseQuery c n [⟨tIDENTIFIER, "eval"⟩, ⟨tSPACE, ""⟩, ⟨tEQUAL, ""⟩] = none ∧
    (∀ (m : Nat) (p p1 : parser) (r : exprElements),
      parser.evalExpr m p [] = some (r, p1) → r = []) := by
  refine ⟨by decide, ?_, ?_, fun m p p1 r h => evalExpr_elements m p p1 [] r h⟩
  · exact ParseQuery_eval_diverges c n _ rfl rfl (by decide) (by decide) (by decide) (by decide)
  · exact ParseQuery_eval_diverges c n _ rfl rfl (by decide) (by decide) (by decide) (by decide)

end queryprint

/-! ## Theorems: properties that the parser keeps -/

namespace queryprint
open tokenType

theorem stable_advanceIf (P : parser → Prop) (hP : parser.Stable P) (p : parser)
    (typ : tokenType) (h : P p) : P (p.advanceIf typ).2 := by
  unfold parser.advanceIf
  split
  · exact hP.advance p h
  · exact h

theorem stable_expect (P : parser → Prop) (hP : parser.Stable P) (p : parser)
    (typ : tokenType) (msg : String) (r : (token × Bool) × parser) (h : P p)
    (hr : p.expect typ msg = some r) : P r.2 := by
  unfold parser.expect at hr
  dsimp only at hr
  split at hr
  · simp only [Option.map_eq_some'] at hr
    obtain ⟨p1, h1, h2⟩ := hr
    subst h2
    exact hP.error _ msg p1 (stable_advanceIf P hP p typ h) h1
  · simp only [Option.some.injEq] at hr
    subst hr
    exact stable_advanceIf P hP p typ h

theorem stable_evalExpr (P : parser → Prop) (hP : parser.Stable P) (n : Nat) :
    ∀ (p p1 : parser) (elements r : exprElements), P p →
    parser.evalExpr n p elements = some (r, p1) → P p1 := by
  induction n with
  | zero => intro p p1 elements r _ h; simp [parser.evalExpr] at h
  | succ n ih =>
    intro p p1 elements r hp h
    rw [parser.evalExpr] at h
    split at h
    · dsimp only at h
      have h1 := stable_advanceIf P hP p tLEFT_PAREN hp
      split at h
      · have h2 := stable_advanceIf P hP _ tSPACE h1
        split at h
        · simp at h
        · rename_i parenExpr p2 heq
          have h3 := ih _ _ _ _ h2 heq
          have h4 := stable_advanceIf P hP p2 tRIGHT_PAREN h3
          split at h
          · simp only [Option.map_eq_some'] at h
            obtain ⟨p3, h5, h6⟩ := h
            simp only [Prod.mk.injEq] at h6
            rw [← h6.2]
            exact hP.error _ _ p3 h4 h5
          · split at h
            · simp only [Option.map_eq_some'] at h
              obtain ⟨p3, h5, h6⟩ := h
              simp only [Prod.mk.injEq] at h6
              rw [← h6.2]
              exact hP.error _ _ p3 h4 h5
            · exact ih _ _ _ _ h4 h
      · exact ih _ _ _ _ h1 h
    · simp only [Option.some.injEq, Prod.mk.injEq] at h
      rw [← h.2]
      exact hp

theorem stable_evalCmdLoop (P : parser → Prop) (hP : parser.Stable P) (n : Nat) :
    ∀ (p p1 : parser) (cmdArgs r : commaSepArgs), P p →
    parser.evalCmdLoop n p cmdArgs = some (r, p1) → P p1 := by
  induction n with
  | zero => intro p p1 cmdArgs r _ h; simp [parser.evalCmdLoop] at h
  | succ n ih =>
    intro p p1 cmdArgs r hp h
    rw [parser.evalCmdLoop] at h
    split at h
    · dsimp only at h
      have h1 := stable_advanceIf P hP p tSPACE hp
      split at h
      · simp only [Option.some.injEq, Prod.mk.injEq] at h
        rw [← h.2]
        exact h1
      · split at h
        · simp at h
        · rename_i expr p2 heq
          have h2 := stable_evalExpr P hP n _ _ _ _ h1 heq
          exact ih _ _ _ _ (stable_advanceIf P hP p2 tCOMMA h2) h
    · simp only [Option.some.injEq, Prod.mk.injEq] at h
      rw [← h.2]
      exact hp

theorem stable_command (P : parser → Prop) (hP : parser.Stable P) (c : cmdParsers)
    (hc : c.keeps P) (n : Nat) (p : parser) (r : command × parser) (hp : P p)
    (h : parser.command c n p = some r) : P r.2 := by
  unfold parser.command at h
  split at h
  · simp at h
  · rename_i cmdTok ok p1 heq
    have h1 : P p1 := stable_expect P hP p _ _ _ hp heq
    split at h
    · split at h
      · simp only [parser.evalCmd, Option.map_eq_some'] at h
        obtain ⟨a, h2, h3⟩ := h
        subst h3
        exact stable_evalCmdLoop P hP n _ _ _ _ h1 h2
      · split at h
        · exact (hc p1 r h1).1 h
        · exact (hc p1 r h1).2 h
    · simp only [Option.some.injEq] at h
      subst h
      exact h1

theorem stable_queryLoop (P : parser → Prop) (hP : parser.Stable P) (c : cmdParsers)
    (hc : c.keeps P) (n : Nat) : ∀ (p p1 : parser) (cmd : command) (q r : query), P p →
    parser.queryLoop c n p cmd q = some (r, p1) → P p1 := by
  induction n with
  | zero => intro p p1 cmd q r _ h; simp [parser.queryLoop] at h
  | succ n ih =>
    intro p p1 cmd q r hp h
    rw [parser.queryLoop] at h
    split at h
    · dsimp only at h
      have h1 := stable_advanceIf P hP p tPIPE hp
      split at h
      · simp only [Option.some.injEq, Prod.mk.injEq] at h
        rw [← h.2]
        exact h1
      · split at h
        · simp at h
        · rename_i cmd1 p2 heq
          exact ih _ _ _ _ _ (stable_command P hP c hc n _ _ h1 heq) h
    · simp only [Option.some.injEq, Prod.mk.injEq] at h
      rw [← h.2]
      exact hp

theorem stable_query (P : parser → Prop) (hP : parser.Stable P) (c : cmdParsers)
    (hc : c.keeps P) (n : Nat) (p p1 : parser) (q : query) (hp : P p)
    (h : parser.query c n p = some (q, p1)) : P p1 := by
  unfold parser.query at h
  split at h
  · simp at h
  · rename_i cmd p2 heq
    have h1 : P p2 := stable_command P hP c hc n _ _ hp heq
    split at h
    · simp at h
    · rename_i q1 p3 heq2
      have h2 : P p3 := stable_queryLoop P hP c hc n _ _ _ _ _ h1 heq2
      split at h
      · simp only [Option.map_eq_some'] at h
        obtain ⟨p4, h3, h4⟩ := h
        simp only [Prod.mk.injEq] at h4
        rw [← h4.2]
        exact hP.error _ _ p4 h2 h3
      · simp only [Option.some.injEq, Prod.mk.injEq] at h
        rw [← h.2]
        exact h2

theorem afterEOF_eq_nil (l : List token) (h : ∀ t ∈ l, t.typ ≠ tEOF) : afterEOF l = [] := by
  induction l with
  | nil => rfl
  | cons t ts ih =>
    have ht := h t (List.mem_cons_self t ts)
    simp only [afterEOF, ht, if_false]
    exact ih (fun x hx => h x (List.mem_cons_of_mem t hx))

theorem advance_err_eq (p : parser) : p.advance.2.err = p.err := by
  unfold parser.advance
  split
  · dsimp only
    split <;> rfl
  · rfl

theorem fed_stable : parser.Stable parser.fed := by
  constructor
  · intro p hp
    obtain ⟨inp, cur, err, stop⟩ := p
    obtain ⟨h1, h2, h3⟩ := hp
    cases stop with
    | true => simpa [parser.advance] using ⟨h1, h2, h3⟩
    | false =>
      have herr : err.isSome = false := by
        cases err with
        | none => rfl
        | some e => simp at h3
      cases inp with
      | nil => simp [parser.advance, parser.fed, token.zero]
      | cons t ts =>
        have ht : t.typ ≠ tEOF := h1 t (List.mem_cons_self t ts)
        have hts : ∀ x ∈ ts, x.typ ≠ tEOF := fun x hx => h1 x (List.mem_cons_of_mem t hx)
        simp only [parser.advance, parser.fed, Bool.not_false, if_true, List.headD_cons,
          List.tail_cons, ht, if_false]
        exact ⟨hts, by simp, by simp [herr]⟩
  · intro p msg p1 hp h
    by_cases he : p.err.isSome = true
    · simp only [parser.error, he, if_true, Option.some.injEq] at h
      subst h
      exact hp
    · have hn : p.err = none := by simpa using he
      obtain ⟨p2, h1, h2, h3, h4⟩ := error_spec p msg hn
      rw [h1] at h
      simp only [Option.some.injEq] at h
      subst h
      have hin : p2.input = [] := by
        rw [h4]
        split
        · rename_i hs
          exact hp.2.1 hs
        · exact afterEOF_eq_nil _ hp.1
      exact ⟨by simp [hin], fun _ => hin, fun _ => h2⟩

theorem query_stopped (c : cmdParsers) (hc : c.keeps parser.fed) (n : Nat) (p p1 : parser)
    (q : query) (hp : p.fed) (h : parser.query c n p = some (q, p1)) :
    p1.stop = true ∧ p1.input = [] := by
  have hfed := stable_query parser.fed fed_stable c hc n p p1 q hp h
  suffices hs : p1.stop = true from ⟨hs, hfed.2.1 hs⟩
  unfold parser.query at h
  split at h
  · simp at h
  · rename_i cmd p2 heq
    have h1 : p2.fed := stable_command parser.fed fed_stable c hc n _ _ hp heq
    split at h
    · simp at h
    · rename_i q1 p3 heq2
      have h2 : p3.fed := stable_queryLoop parser.fed fed_stable c hc n _ _ _ _ _ h1 heq2
      split at h
      · rename_i hns
        simp only [Option.map_eq_some'] at h
        obtain ⟨p4, h3, h4⟩ := h
        simp only [Prod.mk.injEq] at h4
        rw [← h4.2]
        have hn : p3.err = none := by
          cases he : p3.err with
          | none => rfl
          | some e =>
            have := h2.2.2 (by simp [he])
            simp [this] at hns
        obtain ⟨p5, h5, h6, _⟩ := error_spec p3 _ hn
        rw [h5] at h3
        simp only [Option.some.injEq] at h3
        rw [← h3]
        exact h6
      · rename_i hns
        simp only [Option.some.injEq, Prod.mk.injEq] at h
        rw [← h.2]
        simpa using hns

theorem noCmds_keeps (P : parser → Prop) : noCmds.keeps P := by
  intro p r _
  simp [noCmds]

end queryprint

/-! ## Theorems: visitor, first error -/

namespace queryprint
open tokenType

/-- C16: `visit` forwards to the visitor method of the node's own variant. For
every visitor `v` and every node of each of the six variants, `n.visit(v)` is
the result of the one method of `v` for the variant of `n`, called on `n`
itself; and the result does not depend on the other methods of `v`: two
visitors with the same method for the variant give the same result. -/
theorem visit_dispatch (v : visitor) :
    (∀ o : query, (visitable.ofQuery o).visit v = v.visitQuery o) ∧
    (∀ o : command, (visitable.ofCommand o).visit v = v.visitCommand o) ∧
    (∀ o : commaSepArgs, (visitable.ofCommaSepArgs o).visit v = v.visitCommaSepArgs o) ∧
    (∀ o : spaceSepArgs, (visitable.ofSpaceSepArgs o).visit v = v.visitSpaceSepArgs o) ∧
    (∀ o : exprElements, (visitable.ofExprElements o).visit v = v.visitExprElements o) ∧
    (∀ o : plainArg, (visitable.ofPlainArg o).visit v = v.visitPlainArg o) ∧
    (∀ (w : visitor) (o : query), w.visitQuery = v.visitQuery →
      (visitable.ofQuery o).visit w = (visitable.ofQuery o).visit v) ∧
    (∀ (w : visitor) (o : command), w.visitCommand = v.visitCommand →
      (visitable.ofCommand o).visit w = (visitable.ofCommand o).visit v) ∧
    (∀ (w : visitor) (o : commaSepArgs), w.visitCommaSepArgs = v.visitCommaSepArgs →
      (visitable.ofCommaSepArgs o).visit w = (visitable.ofCommaSepArgs o).visit v) ∧
    (∀ (w : visitor) (o : spaceSepArgs), w.visitSpaceSepArgs = v.visitSpaceSepArgs →
      (visitable.ofSpaceSepArgs o).visit w = (visitable.ofSpaceSepArgs o).visit v) ∧
    (∀ (w : visitor) (o : exprElements), w.visitExprElements = v.visitExprElements →
      (visitable.ofExprElements o).visit w = (visitable.ofExprElements o).visit v) ∧
    (∀ (w : visitor) (o : plainArg), w.visitPlainArg = v.visitPlainArg →
      (visitable.ofPlainArg o).visit w = (visitable.ofPlainArg o).visit v) := by
  refine ⟨fun _ => rfl, fun _ => rfl, fun _ => rfl, fun _ => rfl, fun _ => rfl, fun _ => rfl,
    ?_, ?_, ?_, ?_, ?_, ?_⟩ <;> intro w o h
  · simp only [visitable.visit, query.visit, h]
  · simp only [visitable.visit, command.visit, h]
  · simp only [visitable.visit, commaSepArgs.visit, h]
  · simp only [visitable.visit, spaceSepArgs.visit, h]
  · simp only [visitable.visit, exprElements.visit, h]
  · simp only [visitable.visit, plainArg.visit, h]

/-- At the visitor that answers with the name of the method called, and a
visitor with the same `visitPlainArg` and other answers elsewhere: the visit of
a `plainArg` gives `visitPlainArg` for both. -/
theorem visit_dispatch_witness :
    (visitable.ofPlainArg "x").visit
        ⟨fun _ => "a", fun _ => "b", fun _ => "c", fun _ => "d", fun _ => "e",
          fun _ => "visitPlainArg"⟩
      = (visitable.ofPlainArg "x").visit
        ⟨fun _ => "visitQuery", fun _ => "visitCommand", fun _ => "visitCommaSepArgs",
          fun _ => "visitSpaceSepArgs", fun _ => "visitExprElements", fun _ => "visitPlainArg"⟩ :=
  (visit_dispatch ⟨fun _ => "visitQuery", fun _ => "visitCommand", fun _ => "visitCommaSepArgs",
    fun _ => "visitSpaceSepArgs", fun _ => "visitExprElements",
    fun _ => "visitPlainArg"⟩).2.2.2.2.2.2.2.2.2.2.2
    ⟨fun _ => "a", fun _ => "b", fun _ => "c", fun _ => "d", fun _ => "e",
      fun _ => "visitPlainArg"⟩ "x" rfl

theorem err_stable (e : String) : parser.Stable (fun p => p.err = some e) := by
  constructor
  · intro p hp
    rw [advance_err_eq]
    exact hp
  · intro p msg p1 hp h
    simp only [parser.error, hp, Option.isSome_some, if_true, Option.some.injEq] at h
    rw [← h]
    exact hp

end queryprint

/-! ## Theorems: identifiers and kinds of tokens of the scanner -/

namespace queryprint
open tokenType

theorem identToken_eq_ite (w : List Char) :
    identToken w =
      if String.mk w = "AND" then ⟨tAND, ""⟩
      else if String.mk w = "NOT" then ⟨tNOT, ""⟩
      else if String.mk w = "OR" then ⟨tOR, ""⟩
      else if String.mk w = "XOR" then ⟨tXOR, ""⟩
      else ⟨tIDENTIFIER, String.mk w⟩ := by
  unfold identToken
  cases hk : keyWords.lookup (String.mk w) with
  | none =>
    obtain ⟨a, b, c, d⟩ := keyWords_lookup_none _ hk
    simp [a, b, c, d]
  | some typ =>
    rcases keyWords_lookup_some _ _ hk with ⟨a, b⟩ | ⟨a, b⟩ | ⟨a, b⟩ | ⟨a, b⟩ <;>
      simp [a, b, token.ofTyp]

theorem identSpan_at_terminator (d : Char) (ds : List Char)
    (h : d ∈ identTerms ∨ IsSpace d = true) : identSpan (d :: ds) = ([], d :: ds) := by
  have hb : d ≠ backslash := by
    intro hd
    subst hd
    revert h
    decide
  exact identSpan_term d ds hb h

/-- C18: an identifier ends at the first terminator, which is scanned again.
For every non-empty string `w` without terminator, white space, backslash
and quote, and every string `rest` that starts with a terminator or with white
space, the scanner ends on `rest`, and with `toks` and `err` its tokens and
error, the scan of `w` followed by `rest` sends the token of `w` (the keyword
token when `w` is `AND`, `NOT`, `OR` or `XOR`, the identifier token with text
`w` otherwise) and then `toks`, with the error `err`. -/
theorem ScanQuery_identifier_boundary (w rest : List Char) (d : Char) (ds : List Char)
    (hw : w ≠ [])
    (hplain : ∀ x ∈ w, x ∉ identTerms ∧ IsSpace x = false ∧ x ≠ squote ∧ x ≠ backslash)
    (hrest : rest = d :: ds) (hd : d ∈ identTerms ∨ IsSpace d = true) :
    ∃ toks err, scanString (String.mk rest) = some (toks, err) ∧
      scanString (String.mk (w ++ rest)) = some
        ((if String.mk w = "AND" then ⟨tAND, ""⟩
          else if String.mk w = "NOT" then ⟨tNOT, ""⟩
          else if String.mk w = "OR" then ⟨tOR, ""⟩
          else if String.mk w = "XOR" then ⟨tXOR, ""⟩
          else ⟨tIDENTIFIER, String.mk w⟩) :: toks, err) := by
  refine ⟨(lexAll rest).1, (lexAll rest).2, scanString_eq _, ?_⟩
  have hw2 : ∀ x ∈ w, x ≠ backslash ∧ ¬ (x ∈ identTerms ∨ IsSpace x = true) := fun x hx =>
    ⟨(hplain x hx).2.2.2, by simp [(hplain x hx).1, (hplain x hx).2.1]⟩
  have hspan : identSpan (w ++ rest) = (w, rest) := by
    rw [identSpan_plain_append w rest hw2, hrest, identSpan_at_terminator d ds hd]
    simp
  rw [scanString_eq, ← identToken_eq_ite]
  cases w with
  | nil => exact absurd rfl hw
  | cons a w1 =>
    obtain ⟨h1, h2, h3, h4⟩ := hplain a (List.mem_cons_self a w1)
    simp only [List.cons_append] at hspan ⊢
    rw [lexAll_cons, lexStep_plain a _ h1 h2 h3 h4]
    simp [hspan]

/-- At `w = index`, `rest = =foo` and at `w = AND`, `rest` a space and `x`. -/
theorem ScanQuery_identifier_boundary_witness :
    (∃ toks err, scanString (String.mk "=foo".data) = some (toks, err) ∧
      scanString (String.mk ("index".data ++ "=foo".data))
        = some (⟨tIDENTIFIER, "index"⟩ :: toks, err)) ∧
    (∃ toks err, scanString (String.mk " x".data) = some (toks, err) ∧
      scanString (String.mk ("AND".data ++ " x".data)) = some (⟨tAND, ""⟩ :: toks, err)) := by
  constructor
  · obtain ⟨toks, err, h1, h2⟩ := ScanQuery_identifier_boundary "index".data "=foo".data '='
      "foo".data (by decide) (by decide) rfl (by decide)
    exact ⟨toks, err, h1, by simpa using h2⟩
  · obtain ⟨toks, err, h1, h2⟩ := ScanQuery_identifier_boundary "AND".data " x".data ' '
      "x".data (by decide) (by decide) rfl (by decide)
    exact ⟨toks, err, h1, by simpa using h2⟩

end queryprint

namespace queryprint
open tokenType

theorem single_kind (c : Char) (typ : tokenType) (h : singleCharTokens.lookup c = some typ) :
    typ ≠ tEOF ∧ typ ≠ tSTRING ∧ typ ≠ tQUOTED_FIELD ∧ typ ≠ tIDENTIFIER := by
  have hall : ∀ p ∈ singleCharTokens,
      p.2 ≠ tEOF ∧ p.2 ≠ tSTRING ∧ p.2 ≠ tQUOTED_FIELD ∧ p.2 ≠ tIDENTIFIER := by decide
  exact hall _ (lookup_mem _ _ _ h)

theorem double_kind (c d : Char) (nc : List (Char × tokenType)) (typ : tokenType)
    (h1 : doubleCharTokens.lookup c = some nc) (h2 : nc.lookup d = some typ) :
    typ ≠ tEOF ∧ typ ≠ tSTRING ∧ typ ≠ tQUOTED_FIELD ∧ typ ≠ tIDENTIFIER := by
  have hall : ∀ p ∈ doubleCharTokens, ∀ q ∈ p.2,
      q.2 ≠ tEOF ∧ q.2 ≠ tSTRING ∧ q.2 ≠ tQUOTED_FIELD ∧ q.2 ≠ tIDENTIFIER := by decide
  exact hall _ (lookup_mem _ _ _ h1) _ (lookup_mem _ _ _ h2)

/-- The tokens that one iteration of `parse` sends: the token of `identifier`,
a string that starts with `"`, a quoted field that starts with `'`, or a token
without text whose kind is none of `tEOF`, `tSTRING`, `tQUOTED_FIELD`,
`tIDENTIFIER`. -/
theorem lexStep_shape (c : Char) (cs : List Char) :
    ∀ t ∈ (lexStep c cs).toks,
      (∃ w, t = identToken w) ∨ (∃ x, t = ⟨tSTRING, String.mk (dquote :: x)⟩)
      ∨ (∃ x, t = ⟨tQUOTED_FIELD, String.mk (squote :: x)⟩)
      ∨ (∃ typ, t = token.ofTyp typ ∧ typ ≠ tEOF ∧ typ ≠ tSTRING ∧ typ ≠ tQUOTED_FIELD
          ∧ typ ≠ tIDENTIFIER) := by
  intro t ht
  have hA : ∀ b, t ∈ (lexAfterDouble c cs b).toks →
      (∃ w, t = identToken w) ∨ (∃ x, t = ⟨tSTRING, String.mk (dquote :: x)⟩)
      ∨ (∃ x, t = ⟨tQUOTED_FIELD, String.mk (squote :: x)⟩)
      ∨ (∃ typ, t = token.ofTyp typ ∧ typ ≠ tEOF ∧ typ ≠ tSTRING ∧ typ ≠ tQUOTED_FIELD
          ∧ typ ≠ tIDENTIFIER) := by
    intro b hb
    unfold lexAfterDouble at hb
    cases hs : singleCharTokens.lookup c with
    | some typ =>
      simp only [hs, List.mem_singleton] at hb
      exact Or.inr (Or.inr (Or.inr ⟨typ, hb, single_kind c typ hs⟩))
    | none =>
      simp only [hs] at hb
      split at hb
      · simp only [List.mem_singleton] at hb
        exact Or.inr (Or.inr (Or.inr ⟨tSPACE, hb, by decide⟩))
      · split at hb
        · simp at hb
        · simp only [List.mem_singleton] at hb
          exact Or.inl ⟨_, hb⟩
  by_cases h1 : c = backslash
  · subst h1
    rw [lexStep_backslash] at ht
    simp only [List.mem_singleton] at ht
    exact Or.inl ⟨_, ht⟩
  by_cases h2 : c = dquote
  · subst h2
    rw [lexStep_dquote] at ht
    simp only [List.mem_singleton] at ht
    exact Or.inr (Or.inl ⟨_, ht⟩)
  by_cases h3 : c = squote
  · subst h3
    rw [lexStep_squote] at ht
    simp only [List.mem_singleton] at ht
    exact Or.inr (Or.inr (Or.inl ⟨_, ht⟩))
  unfold lexStep at ht
  simp only [h1, h2, h3, if_false] at ht
  cases hD : doubleCharTokens.lookup c with
  | none =>
    simp only [hD] at ht
    exact hA false ht
  | some nc =>
    simp only [hD] at ht
    cases cs with
    | nil => exact hA true ht
    | cons d ds =>
      cases hn : nc.lookup d with
      | some typ =>
        simp only [hn, List.mem_singleton] at ht
        exact Or.inr (Or.inr (Or.inr ⟨typ, ht, double_kind c d nc typ hD hn⟩))
      | none =>
        simp only [hn] at ht
        exact hA true ht

theorem identToken_kind (w : List Char) :
    ((identToken w).typ = tIDENTIFIER ∨ (identToken w).value = "") ∧
    (identToken w).typ ≠ tEOF ∧ (identToken w).typ ≠ tSTRING
      ∧ (identToken w).typ ≠ tQUOTED_FIELD := by
  rw [identToken_eq_ite]
  split
  · exact ⟨Or.inr rfl, by decide⟩
  · split
    · exact ⟨Or.inr rfl, by decide⟩
    · split
      · exact ⟨Or.inr rfl, by decide⟩
      · split
        · exact ⟨Or.inr rfl, by decide⟩
        · exact ⟨Or.inl rfl, by simp⟩

/-- C19: only identifiers, strings and quoted fields carry a text. For every
input the scanner ends, every token it has sent with a non-empty text is of
kind `tIDENTIFIER`, `tSTRING` or `tQUOTED_FIELD`, and every token of another
kind (operator, punctuation, keyword, white space) has the empty text; and each
of the thirteen characters of `singleCharTokens`, scanned on its own, gives
exactly one token, of its kind in the table and without text, and no error. -/
theorem ScanQuery_text_only_on_literals :
    (∀ s : String, ∃ toks err, scanString s = some (toks, err) ∧
      (∀ t ∈ toks, t.value ≠ "" →
        t.typ = tIDENTIFIER ∨ t.typ = tSTRING ∨ t.typ = tQUOTED_FIELD) ∧
      (∀ t ∈ toks, t.typ ≠ tIDENTIFIER → t.typ ≠ tSTRING → t.typ ≠ tQUOTED_FIELD →
        t.value = "")) ∧
    singleCharTokens.map Prod.fst = ",.=>(<-%|+)/*".data ∧
    (∀ p ∈ singleCharTokens, scanString (String.mk [p.1]) = some ([⟨p.2, ""⟩], none)) := by
  have key : ∀ (c : Char) (cs : List Char), ∀ t ∈ (lexStep c cs).toks,
      t.value = "" ∨ t.typ = tIDENTIFIER ∨ t.typ = tSTRING ∨ t.typ = tQUOTED_FIELD := by
    intro c cs t ht
    rcases lexStep_shape c cs t ht with ⟨w, h⟩ | ⟨x, h⟩ | ⟨x, h⟩ | ⟨typ, h, _⟩
    · subst h
      rcases (identToken_kind w).1 with h | h
      · exact Or.inr (Or.inl h)
      · exact Or.inl h
    · subst h; exact Or.inr (Or.inr (Or.inl rfl))
    · subst h; exact Or.inr (Or.inr (Or.inr rfl))
    · subst h; exact Or.inl rfl
  constructor
  · intro s
    refine ⟨(lexAll s.data).1, (lexAll s.data).2, scanString_eq s, ?_, ?_⟩
    · refine lexAll_forall _ ?_ s.data.length s.data (Nat.le_refl _)
      intro c cs t ht hv
      exact (key c cs t ht).resolve_left hv
    · refine lexAll_forall _ ?_ s.data.length s.data (Nat.le_refl _)
      intro c cs t ht h1 h2 h3
      rcases key c cs t ht with h | h | h | h
      · exact h
      · exact absurd h h1
      · exact absurd h h2
      · exact absurd h h3
  · exact ⟨by decide, by decide⟩

/-- At the input `a="b c" AND 'd'`: the tokens with a text are the identifier,
the string and the quoted field. -/
theorem ScanQuery_text_only_on_literals_witness :
    ∃ toks err, scanString "a=\"b c\" AND 'd'" = some (toks, err) ∧
      (∀ t ∈ toks, t.value ≠ "" →
        t.typ = tIDENTIFIER ∨ t.typ = tSTRING ∨ t.typ = tQUOTED_FIELD) := by
  obtain ⟨toks, err, h1, h2, _⟩ := ScanQuery_text_only_on_literals.1 "a=\"b c\" AND 'd'"
  exact ⟨toks, err, h1, h2⟩

/-- C20: the scanner sends no token of kind `tEOF`. For every input the scanner
ends, none of the tokens it has sent is of kind `tEOF`, the kind of the zero
token, the text of every string token starts with `"` and the text of every
quoted field token starts with `'`; hence a parser that reads these tokens and
is not stopped sets its stop flag in `advance` exactly when nothing is left to
read. -/
theorem ScanQuery_no_EOF_token :
    token.zero.typ = tEOF ∧
    (∀ s : String, ∃ toks err, scanString s = some (toks, err) ∧
      (∀ t ∈ toks, t.typ ≠ tEOF) ∧
      (∀ t ∈ toks, t.typ = tSTRING → t.value.data.head? = some dquote) ∧
      (∀ t ∈ toks, t.typ = tQUOTED_FIELD → t.value.data.head? = some squote) ∧
      (∀ p : parser, p.stop = false → (∀ t ∈ p.input, t ∈ toks) →
        (p.advance.2.stop = true ↔ p.input = []))) := by
  have key : ∀ (c : Char) (cs : List Char), ∀ t ∈ (lexStep c cs).toks,
      t.typ ≠ tEOF ∧ (t.typ = tSTRING → t.value.data.head? = some dquote)
        ∧ (t.typ = tQUOTED_FIELD → t.value.data.head? = some squote) := by
    intro c cs t ht
    rcases lexStep_shape c cs t ht with ⟨w, h⟩ | ⟨x, h⟩ | ⟨x, h⟩ | ⟨typ, h, h1, h2, h3, _⟩
    · subst h
      obtain ⟨_, k1, k2, k3⟩ := identToken_kind w
      exact ⟨k1, fun h => absurd h k2, fun h => absurd h k3⟩
    · subst h
      exact ⟨by simp, fun _ => rfl, fun h => by simp at h⟩
    · subst h
      exact ⟨by simp, fun h => by simp at h, fun _ => rfl⟩
    · subst h
      exact ⟨h1, fun h => absurd h h2, fun h => absurd h h3⟩
  refine ⟨rfl, fun s => ?_⟩
  have hno : ∀ t ∈ (lexAll s.data).1, t.typ ≠ tEOF :=
    lexAll_forall _ (fun c cs t ht => (key c cs t ht).1) s.data.length s.data (Nat.le_refl _)
  refine ⟨(lexAll s.data).1, (lexAll s.data).2, scanString_eq s, hno, ?_, ?_, ?_⟩
  · exact lexAll_forall _ (fun c cs t ht => (key c cs t ht).2.1) s.data.length s.data
      (Nat.le_refl _)
  · exact lexAll_forall _ (fun c cs t ht => (key c cs t ht).2.2) s.data.length s.data
      (Nat.le_refl _)
  · intro p hs hin
    obtain ⟨inp, cur, err, stop⟩ := p
    simp only at hs hin
    subst hs
    cases inp with
    | nil => simp [parser.advance, token.zero]
    | cons t ts =>
      have ht : t.typ ≠ tEOF := hno t (hin t (List.mem_cons_self t ts))
      simp [parser.advance, ht]

/-- At the input `"a" 'b' c`: no token of kind `tEOF`, and the parser that has
the tokens of the scan left to read does not stop at the first of them. -/
theorem ScanQuery_no_EOF_token_witness :
    ∃ toks err, scanString "\"a\" 'b' c" = some (toks, err) ∧ (∀ t ∈ toks, t.typ ≠ tEOF) ∧
      ¬ ((parser.init toks).advance.2.stop = true) := by
  obtain ⟨toks, err, h1, h2, _, _, h5⟩ := ScanQuery_no_EOF_token.2 "\"a\" 'b' c"
  refine ⟨toks, err, h1, h2, fun hstop => ?_⟩
  have hnil := (h5 (parser.init toks) rfl (fun t ht => ht)).1 hstop
  have h3 : scanString "\"a\" 'b' c" = some
      ([⟨tSTRING, "\"a\""⟩, ⟨tSPACE, ""⟩, ⟨tQUOTED_FIELD, "'b'"⟩, ⟨tSPACE, ""⟩,
        ⟨tIDENTIFIER, "c"⟩], none) := by decide
  rw [h3] at h1
  simp only [Option.some.injEq, Prod.mk.injEq] at h1
  rw [← h1.1] at hnil
  simp [parser.init] at hnil

end queryprint

/-! ## Theorems: rendering and white space, token by token -/

namespace queryprint
open tokenType

theorem collapseFrom_nospace_append (w l : List Char) (hw : ∀ x ∈ w, IsSpace x = false) :
    collapseFrom false (w ++ l) = w ++ collapseFrom false l := by
  induction w with
  | nil => rfl
  | cons a w ih =>
    have ha := hw a (List.mem_cons_self a w)
    rw [List.cons_append, collapseFrom_cons]
    simp [ha, ih (fun y hy => hw y (List.mem_cons_of_mem a hy))]

theorem collapseFrom_true_eq_false_dropWhile (l : List Char) :
    collapseFrom true l = collapseFrom false (l.dropWhile IsSpace) := by
  induction l with
  | nil => rfl
  | cons a l ih =>
    by_cases ha : IsSpace a = true
    · simp [collapseFrom_cons, List.dropWhile, ha, ih]
    · simp [collapseFrom_cons, List.dropWhile, ha]

theorem spelling_nospace (typ : tokenType) (h : typ ≠ tSPACE) :
    ∀ x ∈ (spelling typ).data, IsSpace x = false := by
  cases typ <;> first | exact absurd rfl h | decide

theorem render_nospace_of_text (t : token) (ht : t.typ ≠ tSPACE)
    (h : ∀ x ∈ t.value.data, IsSpace x = false) : ∀ x ∈ renderToken t, IsSpace x = false := by
  unfold renderToken
  split
  · exact h
  · exact spelling_nospace t.typ ht

theorem head_dropWhile_nospace (l : List Char) :
    ∀ d ∈ (l.dropWhile IsSpace).head?, IsSpace d = false := by
  induction l with
  | nil => simp
  | cons a l ih =>
    by_cases ha : IsSpace a = true
    · simpa [List.dropWhile, ha] using ih
    · simp [List.dropWhile, ha]

theorem takeWhile_all_space (l : List Char) : ∀ x ∈ l.takeWhile IsSpace, IsSpace x = true := by
  induction l with
  | nil => simp
  | cons a l ih =>
    by_cases ha : IsSpace a = true
    · intro x hx
      simp only [List.takeWhile, ha, List.mem_cons] at hx
      rcases hx with hx | hx
      · rw [hx]; exact ha
      · exact ih x hx
    · simp [List.takeWhile, ha]

theorem lexAll_spelledBy (n : Nat) : ∀ cs : List Char, cs.length ≤ n → (lexAll cs).2 = none →
    spelledBy (lexAll cs).1 cs := by
  induction n with
  | zero =>
    intro cs h _
    have : cs = [] := List.length_eq_zero.mp (Nat.le_zero.mp h)
    subst this
    simp [lexAll_nil, spelledBy]
  | succ n ih =>
    intro cs h he
    cases cs with
    | nil => simp [lexAll_nil, spelledBy]
    | cons c r =>
      simp only [List.length_cons, Nat.add_le_add_iff_right] at h
      rw [lexAll_cons] at he ⊢
      cases hs : (lexStep c r).err with
      | some e => simp [hs] at he
      | none =>
        simp only [hs] at he ⊢
        have hrec := ih (lexStep c r).rest (Nat.le_trans (lexStep_rest_le c r) h) he
        rcases lexStep_decomp c r hs with ⟨h1, h2, h3⟩ | ⟨t, h1, h2, h3, _⟩
        · rw [h1, List.singleton_append]
          have hty : (token.ofTyp tSPACE).typ = tSPACE := rfl
          simp only [spelledBy, hty, if_true]
          refine ⟨c :: r.takeWhile IsSpace, (lexStep c r).rest, ?_, by simp, ?_, ?_, hrec⟩
          · rw [h3, List.cons_append, List.takeWhile_append_dropWhile]
          · intro x hx
            simp only [List.mem_cons] at hx
            rcases hx with hx | hx
            · rw [hx]; exact h2
            · exact takeWhile_all_space r x hx
          · rw [h3]
            exact head_dropWhile_nospace r
        · rw [h1, List.singleton_append]
          simp only [spelledBy, h2, if_false]
          exact ⟨(lexStep c r).rest, h3.symm, hrec⟩

theorem lexAll_render_exact (n : Nat) : ∀ cs : List Char, cs.length ≤ n →
    (lexAll cs).2 = none →
    (∀ t ∈ (lexAll cs).1, t.typ ≠ tSPACE → ∀ x ∈ renderToken t, IsSpace x = false) →
    renderTokens (lexAll cs).1 = collapseFrom false cs := by
  induction n with
  | zero =>
    intro cs h _ _
    have : cs = [] := List.length_eq_zero.mp (Nat.le_zero.mp h)
    subst this
    simp [lexAll_nil, renderTokens, collapseFrom]
  | succ n ih =>
    intro cs h he hns
    cases cs with
    | nil => simp [lexAll_nil, renderTokens, collapseFrom]
    | cons c r =>
      simp only [List.length_cons, Nat.add_le_add_iff_right] at h
      rw [lexAll_cons] at he hns ⊢
      cases hs : (lexStep c r).err with
      | some e => simp [hs] at he
      | none =>
        simp only [hs] at he hns ⊢
        have hrec := ih (lexStep c r).rest (Nat.le_trans (lexStep_rest_le c r) h) he
          (fun t ht => hns t (List.mem_append_right _ ht))
        rw [renderTokens_append, hrec]
        rcases lexStep_decomp c r hs with ⟨h1, h2, h3⟩ | ⟨t, h1, h2, h3, _⟩
        · have ht : renderTokens [token.ofTyp tSPACE] = [' '] := rfl
          rw [h1, ht, collapseFrom_cons, h3, collapseFrom_true_eq_false_dropWhile r]
          simp [h2]
        · have ht : renderTokens [t] = renderToken t := by simp [renderTokens]
          have hw := hns t (List.mem_append_left _ (by rw [h1]; exact List.mem_singleton_self t)) h2
          rw [h1, ht, ← h3, collapseFrom_nospace_append _ _ hw]

theorem lexAll_space_runs_exact (n : Nat) : ∀ cs : List Char, cs.length ≤ n →
    (lexAll cs).2 = none →
    (∀ t ∈ (lexAll cs).1, t.typ ≠ tSPACE → ∀ x ∈ renderToken t, IsSpace x = false) →
    countSpaceTokens (lexAll cs).1 = wsRunsFrom false cs := by
  induction n with
  | zero =>
    intro cs h _ _
    have : cs = [] := List.length_eq_zero.mp (Nat.le_zero.mp h)
    subst this
    simp [lexAll_nil, countSpaceTokens, wsRunsFrom]
  | succ n ih =>
    intro cs h he hns
    cases cs with
    | nil => simp [lexAll_nil, countSpaceTokens, wsRunsFrom]
    | cons c r =>
      simp only [List.length_cons, Nat.add_le_add_iff_right] at h
      rw [lexAll_cons] at he hns ⊢
      cases hs : (lexStep c r).err with
      | some e => simp [hs] at he
      | none =>
        simp only [hs] at he hns ⊢
        have hrec := ih (lexStep c r).rest (Nat.le_trans (lexStep_rest_le c r) h) he
          (fun t ht => hns t (List.mem_append_right _ ht))
        rcases lexStep_decomp c r hs with ⟨h1, h2, h3⟩ | ⟨t, h1, h2, h3, _⟩
        · rw [h1, List.singleton_append, countSpaceTokens_cons, hrec, wsRunsFrom_cons, h3,
            wsRunsFrom_true_dropWhile]
          simp [h2, token.ofTyp]
        · have hw := hns t (List.mem_append_left _ (by rw [h1]; exact List.mem_singleton_self t)) h2
          rw [h1, List.singleton_append, countSpaceTokens_cons, hrec, ← h3,
            wsRunsFrom_nonspace_append _ _ hw]
          simp [h2]

theorem lexAll_plain_render (n : Nat) : ∀ cs : List Char, cs.length ≤ n →
    (∀ x ∈ cs, x ≠ backslash ∧ x ≠ dquote ∧ x ≠ squote) →
    ∀ t ∈ (lexAll cs).1, t.typ ≠ tSPACE → ∀ x ∈ renderToken t, IsSpace x = false := by
  induction n with
  | zero =>
    intro cs h _ t ht
    have : cs = [] := List.length_eq_zero.mp (Nat.le_zero.mp h)
    subst this
    simp [lexAll_nil] at ht
  | succ n ih =>
    intro cs h hp t ht
    cases cs with
    | nil => simp [lexAll_nil] at ht
    | cons c r =>
      simp only [List.length_cons, Nat.add_le_add_iff_right] at h
      rw [lexAll_cons] at ht
      cases hs : (lexStep c r).err with
      | some e => simp [hs, lexStep_err_toks c r e hs] at ht
      | none =>
        simp only [hs, List.mem_append] at ht
        have hlen := Nat.le_trans (lexStep_rest_le c r) h
        rcases lexStep_decomp c r hs with ⟨h1, h2, h3⟩ | ⟨t1, h1, h2, h3, h4⟩
        · rcases ht with ht | ht
          · rw [h1, List.mem_singleton] at ht
            intro hty
            exact absurd (by rw [ht]; rfl) hty
          · refine ih _ hlen (fun x hx => ?_) t ht
            rw [h3] at hx
            exact hp x (List.mem_cons_of_mem c ((List.dropWhile_sublist _).subset hx))
        · rcases ht with ht | ht
          · rw [h1, List.mem_singleton] at ht
            subst ht
            intro _
            have hb : backslash ∉ c :: r := fun hm => (hp _ hm).1 rfl
            have hc := hp c (List.mem_cons_self c r)
            exact h4 hb hc.2.1 hc.2.2
          · refine ih _ hlen (fun x hx => ?_) t ht
            apply hp x
            rw [← h3]
            exact List.mem_append_right _ hx

end queryprint

namespace queryprint
open tokenType

/-- C5, as the code has it: the rendering of the tokens gives back the input
with the runs of white space collapsed, except for the white space that is part
of the text of a token. For every input the scanner ends, and when it returns
no error: the tokens spell the input, a `tSPACE` token standing for one whole
run of white space and every other token for its rendering; the concatenated
renderings and the input are equal once every run of white space is collapsed
in both; and whenever no text of a token holds white space, which is the case
of every input without quote and backslash, the concatenated renderings are
exactly the input with every run of white space collapsed to a single space. -/
theorem ScanQuery_render_roundtrip (s : String) :
    ∃ toks err, scanString s = some (toks, err) ∧
      (err = none →
        spelledBy toks s.data ∧
        collapse (renderTokens toks) = collapse s.data ∧
        ((∀ t ∈ toks, ∀ x ∈ t.value.data, IsSpace x = false) →
          renderTokens toks = collapse s.data) ∧
        (backslash ∉ s.data → dquote ∉ s.data → squote ∉ s.data →
          renderTokens toks = collapse s.data)) := by
  refine ⟨(lexAll s.data).1, (lexAll s.data).2, scanString_eq s, fun he => ⟨?_, ?_, ?_, ?_⟩⟩
  · exact lexAll_spelledBy s.data.length s.data (Nat.le_refl _) he
  · exact lexAll_collapse s.data.length s.data (Nat.le_refl _) he false
  · intro htext
    exact lexAll_render_exact s.data.length s.data (Nat.le_refl _) he
      (fun t ht hty => render_nospace_of_text t hty (htext t ht))
  · intro h1 h2 h3
    exact lexAll_render_exact s.data.length s.data (Nat.le_refl _) he
      (lexAll_plain_render s.data.length s.data (Nat.le_refl _)
        (fun x hx => ⟨fun h => h1 (h ▸ hx), fun h => h2 (h ▸ hx), fun h => h3 (h ▸ hx)⟩))

/-- At the input `a  "b" =  d`, whose literal holds no white space: the scanner
returns no error, and the renderings of its tokens, concatenated, are the input
with both runs of two spaces collapsed, `a "b" = d`. -/
theorem ScanQuery_render_roundtrip_witness :
    ∃ toks, scanString "a  \"b\" =  d" = some (toks, none) ∧
      renderTokens toks = collapse "a  \"b\" =  d".data ∧
      renderTokens toks = "a \"b\" = d".data := by
  obtain ⟨toks, err, h1, h2⟩ := ScanQuery_render_roundtrip "a  \"b\" =  d"
  have h3 : scanString "a  \"b\" =  d" = some
      ([⟨tIDENTIFIER, "a"⟩, ⟨tSPACE, ""⟩, ⟨tSTRING, "\"b\""⟩, ⟨tSPACE, ""⟩, ⟨tEQUAL, ""⟩,
        ⟨tSPACE, ""⟩, ⟨tIDENTIFIER, "d"⟩], none) := by decide
  rw [h3] at h1
  simp only [Option.some.injEq, Prod.mk.injEq] at h1
  obtain ⟨h4, h5⟩ := h1
  subst h4
  have h6 := (h2 h5.symm).2.2.1 (by decide)
  exact ⟨_, h3, h6, by decide⟩

/-- C6, as the code has it: one `tSPACE` token for each run of white space that
is not part of the text of a token. For every input the scanner ends, every
`tSPACE` token it sends is without text, and it sends at most as many `tSPACE`
tokens as the input has maximal runs of white space; when it returns no error,
the tokens spell the input, each `tSPACE` token standing for one whole run of
one or more white space code points, whatever its length; and whenever no text
of a token holds white space, which is the case of every input without quote
and backslash, the number of `tSPACE` tokens is the number of maximal runs of
white space of the input. -/
theorem ScanQuery_space_tokens (s : String) :
    ∃ toks err, scanString s = some (toks, err) ∧
      (∀ t ∈ toks, t.typ = tSPACE → t.value = "") ∧
      countSpaceTokens toks ≤ wsRuns s.data ∧
      (err = none → spelledBy toks s.data) ∧
      (err = none → (∀ t ∈ toks, ∀ x ∈ t.value.data, IsSpace x = false) →
        countSpaceTokens toks = wsRuns s.data) ∧
      (backslash ∉ s.data → dquote ∉ s.data → squote ∉ s.data → err = none →
        countSpaceTokens toks = wsRuns s.data) := by
  refine ⟨(lexAll s.data).1, (lexAll s.data).2, scanString_eq s, ?_, ?_, fun he => ?_,
    fun he htext => ?_, fun h1 h2 h3 he => ?_⟩
  · exact lexAll_forall _ lexStep_space_value s.data.length s.data (Nat.le_refl _)
  · exact lexAll_space_le s.data.length s.data (Nat.le_refl _)
  · exact lexAll_spelledBy s.data.length s.data (Nat.le_refl _) he
  · exact lexAll_space_runs_exact s.data.length s.data (Nat.le_refl _) he
      (fun t ht hty => render_nospace_of_text t hty (htext t ht))
  · exact lexAll_space_runs s.data.length s.data (Nat.le_refl _)
      (fun x hx => ⟨fun h => h1 (h ▸ hx), fun h => h2 (h ▸ hx), fun h => h3 (h ▸ hx)⟩) he

/-- At the input `a   "b" c`, with a literal without white space and two runs of
white space, of lengths three and one: the scanner returns no error and sends
two `tSPACE` tokens. -/
theorem ScanQuery_space_tokens_witness :
    ∃ toks, scanString "a   \"b\" c" = some (toks, none) ∧ countSpaceTokens toks = 2 ∧
      wsRuns "a   \"b\" c".data = 2 := by
  obtain ⟨toks, err, h1, _, _, _, h2, _⟩ := ScanQuery_space_tokens "a   \"b\" c"
  have h3 : scanString "a   \"b\" c" = some
      ([⟨tIDENTIFIER, "a"⟩, ⟨tSPACE, ""⟩, ⟨tSTRING, "\"b\""⟩, ⟨tSPACE, ""⟩,
        ⟨tIDENTIFIER, "c"⟩], none) := by decide
  rw [h3] at h1
  simp only [Option.some.injEq, Prod.mk.injEq] at h1
  obtain ⟨h4, h5⟩ := h1
  subst h4
  have h6 : wsRuns "a   \"b\" c".data = 2 := by decide
  exact ⟨_, h3, (h2 h5.symm (by decide)).trans h6, h6⟩

end queryprint

/-! ## Theorems: the parser on the tokens of the scanner, first error -/

namespace queryprint
open tokenType

theorem lexAll_no_EOF (cs : List Char) : ∀ t ∈ (lexAll cs).1, t.typ ≠ tEOF := by
  refine lexAll_forall _ ?_ cs.length cs (Nat.le_refl _)
  intro c r t ht
  rcases lexStep_shape c r t ht with ⟨w, h⟩ | ⟨x, h⟩ | ⟨x, h⟩ | ⟨typ, h, h1, _⟩
  · subst h; exact (identToken_kind w).2.1
  · subst h; simp
  · subst h; simp
  · subst h; exact h1

theorem ParseQuery_eq_some (c : cmdParsers) (n : Nat) (toks : List token) (q : query)
    (eo : Option String) :
    ParseQuery c n toks = some (q, eo) ↔
      ∃ p1, parser.query c n (parser.init toks).advance.2 = some (q, p1) ∧ p1.err = eo := by
  simp only [ParseQuery, parser.init, Option.map_eq_some', Prod.mk.injEq]
  constructor
  · rintro ⟨a, h1, h2, h3⟩
    exact ⟨a.2, by rw [← h2]; exact h1, h3⟩
  · rintro ⟨p1, h1, h2⟩
    exact ⟨(q, p1), h1, rfl, h2⟩

/-- C15: `error` reads the source up to the end of the input, and the parser
leaves no token unread. For every parser without recorded error and every
message, `error` returns, the recorded error is then the message, the stop flag
is set, and the unread input is what follows the end of the input, that is the
first token of kind `tEOF` (nothing, when no token has that kind; a parser that
was stopped already reads nothing more). Hence, for every token sequence
without token of kind `tEOF`, and so for every token sequence that the scanner
sends, with methods `fieldsCmd` and `searchCmd` that keep the parser fed:
whenever `ParseQuery` returns, with a non-nil error or without, the stop flag
is set and no token of the sequence is left unread. -/
theorem parser_error_drains :
    (∀ (p : parser) (msg : String), p.err = none →
      ∃ p1, p.error msg = some p1 ∧ p1.err = some msg ∧ p1.stop = true ∧
        p1.input = (if p.stop then p.input else afterEOF p.input) ∧
        (p.stop = false → (∀ t ∈ p.input, t.typ ≠ tEOF) → p1.input = [])) ∧
    (∀ (c : cmdParsers) (n : Nat) (toks : List token) (q : query) (p1 : parser),
      (∀ t ∈ toks, t.typ ≠ tEOF) → c.keeps parser.fed →
      parser.query c n (parser.init toks).advance.2 = some (q, p1) →
      ParseQuery c n toks = some (q, p1.err) ∧ p1.stop = true ∧ p1.input = []) ∧
    (∀ (c : cmdParsers) (n : Nat) (toks : List token) (q : query) (eo : Option String),
      (∀ t ∈ toks, t.typ ≠ tEOF) → c.keeps parser.fed →
      ParseQuery c n toks = some (q, eo) →
      ∃ p1, parser.query c n (parser.init toks).advance.2 = some (q, p1) ∧ p1.err = eo ∧
        p1.stop = true ∧ p1.input = []) ∧
    (∀ (c : cmdParsers) (n : Nat) (s : String) (toks : List token) (err eo : Option String)
      (q : query), scanString s = some (toks, err) → c.keeps parser.fed →
      ParseQuery c n toks = some (q, eo) →
      ∃ p1, parser.query c n (parser.init toks).advance.2 = some (q, p1) ∧ p1.err = eo ∧
        p1.stop = true ∧ p1.input = []) := by
  have part2 : ∀ (c : cmdParsers) (n : Nat) (toks : List token) (q : query) (p1 : parser),
      (∀ t ∈ toks, t.typ ≠ tEOF) → c.keeps parser.fed →
      parser.query c n (parser.init toks).advance.2 = some (q, p1) →
      ParseQuery c n toks = some (q, p1.err) ∧ p1.stop = true ∧ p1.input = [] := by
    intro c n toks q p1 hno hc h
    have hinit : (parser.init toks).fed := ⟨hno, by simp [parser.init], by simp [parser.init]⟩
    have h0 := fed_stable.advance _ hinit
    exact ⟨(ParseQuery_eq_some c n toks q p1.err).2 ⟨p1, h, rfl⟩,
      query_stopped c hc n _ p1 q h0 h⟩
  have part3 : ∀ (c : cmdParsers) (n : Nat) (toks : List token) (q : query)
      (eo : Option String), (∀ t ∈ toks, t.typ ≠ tEOF) → c.keeps parser.fed →
      ParseQuery c n toks = some (q, eo) →
      ∃ p1, parser.query c n (parser.init toks).advance.2 = some (q, p1) ∧ p1.err = eo ∧
        p1.stop = true ∧ p1.input = [] := by
    intro c n toks q eo hno hc h
    obtain ⟨p1, h1, h2⟩ := (ParseQuery_eq_some c n toks q eo).1 h
    exact ⟨p1, h1, h2, (part2 c n toks q p1 hno hc h1).2⟩
  refine ⟨?_, part2, part3, ?_⟩
  · intro p msg h
    obtain ⟨p1, h1, h2, h3, h4⟩ := error_spec p msg h
    refine ⟨p1, h1, h3, h2, h4, fun hs hno => ?_⟩
    rw [h4, hs]
    exact afterEOF_eq_nil _ hno
  · intro c n s toks err eo q hs hc h
    rw [scanString_eq] at hs
    simp only [Option.some.injEq, Prod.mk.injEq] at hs
    refine part3 c n toks q eo ?_ hc h
    have htoks : toks = (lexAll s.data).1 := by rw [hs]
    rw [htoks]
    exact lexAll_no_EOF s.data

/-- At the parser that stands on `|` with `x`, `y` unread, and at the tokens of
the scan of `|x y`, on which `ParseQuery` returns an error: the error is
recorded and nothing is left unread. -/
theorem parser_error_drains_witness :
    (∃ p1, (parser.mk [⟨tIDENTIFIER, "x"⟩, ⟨tIDENTIFIER, "y"⟩] ⟨tPIPE, ""⟩ none false).error "m"
        = some p1 ∧ p1.err = some "m" ∧ p1.stop = true ∧ p1.input = []) ∧
    (∃ p1, parser.query noCmds 1 (parser.init
          [⟨tPIPE, ""⟩, ⟨tIDENTIFIER, "x"⟩, ⟨tSPACE, ""⟩, ⟨tIDENTIFIER, "y"⟩]).advance.2
        = some ([], p1) ∧
      p1.err = some "Expected Splunk command after '|' and in query beginning" ∧
      p1.stop = true ∧ p1.input = []) := by
  constructor
  · obtain ⟨p1, h1, h2, h3, _, h5⟩ := parser_error_drains.1
      (parser.mk [⟨tIDENTIFIER, "x"⟩, ⟨tIDENTIFIER, "y"⟩] ⟨tPIPE, ""⟩ none false) "m" rfl
    exact ⟨p1, h1, h2, h3, h5 rfl (by decide)⟩
  · have hscan : scanString "|x y" = some
        ([⟨tPIPE, ""⟩, ⟨tIDENTIFIER, "x"⟩, ⟨tSPACE, ""⟩, ⟨tIDENTIFIER, "y"⟩], none) := by decide
    exact parser_error_drains.2.2.2 noCmds 1 "|x y" _ none
      (some "Expected Splunk command after '|' and in query beginning") [] hscan
      (noCmds_keeps _) rfl

end queryprint

namespace queryprint
open tokenType

theorem query_after_command (P : parser → Prop) (hP : parser.Stable P) (c : cmdParsers)
    (hc : c.keeps P) (n : Nat) (p p0 p1 : parser) (cmd : command) (q : query)
    (hcmd : parser.command c n p = some (cmd, p0)) (h0 : P p0)
    (h : parser.query c n p = some (q, p1)) : P p1 := by
  unfold parser.query at h
  rw [hcmd] at h
  dsimp only at h
  split at h
  · simp at h
  · rename_i q1 p3 heq2
    have h2 : P p3 := stable_queryLoop P hP c hc n _ _ _ _ _ h0 heq2
    split at h
    · simp only [Option.map_eq_some'] at h
      obtain ⟨p4, h3, h4⟩ := h
      simp only [Prod.mk.injEq] at h4
      rw [← h4.2]
      exact hP.error _ _ p4 h2 h3
    · simp only [Option.some.injEq, Prod.mk.injEq] at h
      rw [← h.2]
      exact h2

theorem queryLoop_after_command (P : parser → Prop) (hP : parser.Stable P) (c : cmdParsers)
    (hc : c.keeps P) (n : Nat) (p p1 p2 : parser) (cmd cmd1 : command) (q r : query)
    (hs : p.stop = false) (hpipe : p.currentIs tPIPE = true)
    (hcmd : parser.command c n p.advance.2 = some (cmd1, p2)) (h2 : P p2)
    (h : parser.queryLoop c (n + 1) p cmd q = some (r, p1)) : P p1 := by
  rw [parser.queryLoop] at h
  simp only [hs, parser.advanceIf, hpipe, Bool.not_false, Bool.not_true, if_true,
    Bool.false_eq_true, if_false, hcmd] at h
  exact stable_queryLoop P hP c hc n _ _ _ _ _ h2 h

theorem query_after_loop (P : parser → Prop) (hP : parser.Stable P) (c : cmdParsers)
    (n : Nat) (p p0 p1 p3 : parser) (cmd : command) (q q1 : query)
    (hcmd : parser.command c n p = some (cmd, p0))
    (hloop : parser.queryLoop c n p0 cmd [] = some (q1, p3)) (h3 : P p3)
    (h : parser.query c n p = some (q, p1)) : P p1 := by
  unfold parser.query at h
  rw [hcmd] at h
  dsimp only at h
  rw [hloop] at h
  dsimp only at h
  split at h
  · simp only [Option.map_eq_some'] at h
    obtain ⟨p4, h4, h5⟩ := h
    simp only [Prod.mk.injEq] at h5
    rw [← h5.2]
    exact hP.error _ _ p4 h3 h4
  · simp only [Option.some.injEq, Prod.mk.injEq] at h
    rw [← h.2]
    exact h3

theorem evalExpr_after_nested (P : parser → Prop) (hP : parser.Stable P) (n : Nat)
    (p p1 p2 : parser) (elements r parenExpr : exprElements)
    (hguard : (!(p.stop || p.currentIs tCOMMA || p.currentIs tPIPE
      || p.currentIs tRIGHT_PAREN)) = true)
    (hparen : p.currentIs tLEFT_PAREN = true)
    (hinner : parser.evalExpr n (p.advance.2.advanceIf tSPACE).2 [] = some (parenExpr, p2))
    (h2 : P p2) (h : parser.evalExpr (n + 1) p elements = some (r, p1)) : P p1 := by
  rw [parser.evalExpr] at h
  have hadv : p.advanceIf tLEFT_PAREN = (true, p.advance.2) := by
    simp [parser.advanceIf, hparen]
  simp only [hguard, if_true, hadv, hinner] at h
  have h4 := stable_advanceIf P hP p2 tRIGHT_PAREN h2
  split at h
  · simp only [Option.map_eq_some'] at h
    obtain ⟨p3, h5, h6⟩ := h
    simp only [Prod.mk.injEq] at h6
    rw [← h6.2]
    exact hP.error _ _ p3 h4 h5
  · split at h
    · simp only [Option.map_eq_some'] at h
      obtain ⟨p3, h5, h6⟩ := h
      simp only [Prod.mk.injEq] at h6
      rw [← h6.2]
      exact hP.error _ _ p3 h4 h5
    · exact stable_evalExpr P hP n _ _ _ _ h4 h

theorem evalCmdLoop_after_evalExpr (P : parser → Prop) (hP : parser.Stable P) (n : Nat)
    (p p1 p2 : parser) (cmdArgs r : commaSepArgs) (expr : exprElements)
    (hs : p.stop = false) (hpipe : (p.advanceIf tSPACE).2.currentIs tPIPE = false)
    (hexpr : parser.evalExpr n (p.advanceIf tSPACE).2 [] = some (expr, p2)) (h2 : P p2)
    (h : parser.evalCmdLoop (n + 1) p cmdArgs = some (r, p1)) : P p1 := by
  rw [parser.evalCmdLoop] at h
  simp only [hs, Bool.not_false, if_true, hpipe, Bool.false_eq_true, if_false, hexpr] at h
  exact stable_evalCmdLoop P hP n _ _ _ _ (stable_advanceIf P hP p2 tCOMMA h2) h

/-- C17: the stopped state is absorbing and the first error wins. For every
parser whose stop flag is set, `advance` returns false and leaves the parser as
it is, with its current token, its error, its flag and its unread input; for
every parser with a recorded error, `error` leaves the parser as it is, and for
every parser without one, `error` records its message and sets the flag. Hence
the error that `ParseQuery` returns is the first one recorded: `ParseQuery`
returns the error that the parser holds when `query` returns; with methods
`fieldsCmd` and `searchCmd` that keep a recorded error, every method started
with the error `e` recorded returns with `e` recorded, and whenever a call
returns with `e` recorded, its caller does too: `evalExpr` after its nested
call, the loop of `evalCmd` after `evalExpr`, the loop of `query` after
`command`, `query` after its first `command` and after its loop, and
`ParseQuery` after the first `command`. On the tokens of `eval (()`, `error` is
called first with `Found unbalanced parentheses` and then, on the parser that
holds this error, with `Expected expression inside parentheses`; `ParseQuery`
returns the first message. -/
theorem parser_first_error_wins :
    (∀ p : parser, p.stop = true → p.advance = (false, p)) ∧
    (∀ (p : parser) (msg e : String), p.err = some e → p.error msg = some p) ∧
    (∀ (p : parser) (msg : String), p.err = none →
      ∃ p1, p.error msg = some p1 ∧ p1.err = some msg ∧ p1.stop = true) ∧
    (∀ (c : cmdParsers) (n : Nat) (p p1 : parser) (e : String),
      c.keeps (fun s => s.err = some e) → p.err = some e →
      (∀ (elements r : exprElements),
        parser.evalExpr n p elements = some (r, p1) → p1.err = some e) ∧
      (∀ cmd : command, parser.evalCmd n p = some (cmd, p1) → p1.err = some e) ∧
      (∀ cmd : command, parser.command c n p = some (cmd, p1) → p1.err = some e) ∧
      (∀ q : query, parser.query c n p = some (q, p1) → p1.err = some e)) ∧
    (∀ (c : cmdParsers) (n : Nat) (toks : List token) (q : query) (eo : Option String),
      ParseQuery c n toks = some (q, eo) ↔
        ∃ p1, parser.query c n (parser.init toks).advance.2 = some (q, p1) ∧ p1.err = eo) ∧
    (∀ (c : cmdParsers) (n : Nat) (p p1 : parser) (e : String),
      c.keeps (fun s => s.err = some e) → p.err = some e →
      (∀ (cmdArgs r : commaSepArgs),
        parser.evalCmdLoop n p cmdArgs = some (r, p1) → p1.err = some e) ∧
      (∀ (cmd : command) (q r : query),
        parser.queryLoop c n p cmd q = some (r, p1) → p1.err = some e)) ∧
    (∀ (n : Nat) (p p1 p2 : parser) (elements r parenExpr : exprElements) (e : String),
      (!(p.stop || p.currentIs tCOMMA || p.currentIs tPIPE || p.currentIs tRIGHT_PAREN)) = true →
      p.currentIs tLEFT_PAREN = true →
      parser.evalExpr n (p.advance.2.advanceIf tSPACE).2 [] = some (parenExpr, p2) →
      p2.err = some e →
      parser.evalExpr (n + 1) p elements = some (r, p1) → p1.err = some e) ∧
    (∀ (n : Nat) (p p1 p2 : parser) (cmdArgs r : commaSepArgs) (expr : exprElements)
      (e : String), p.stop = false → (p.advanceIf tSPACE).2.currentIs tPIPE = false →
      parser.evalExpr n (p.advanceIf tSPACE).2 [] = some (expr, p2) → p2.err = some e →
      parser.evalCmdLoop (n + 1) p cmdArgs = some (r, p1) → p1.err = some e) ∧
    (∀ (c : cmdParsers) (n : Nat) (p p1 p2 : parser) (cmd cmd1 : command) (q r : query)
      (e : String), c.keeps (fun s => s.err = some e) → p.stop = false →
      p.currentIs tPIPE = true → parser.command c n p.advance.2 = some (cmd1, p2) →
      p2.err = some e →
      parser.queryLoop c (n + 1) p cmd q = some (r, p1) → p1.err = some e) ∧
    (∀ (c : cmdParsers) (n : Nat) (p p0 p1 : parser) (cmd : command) (q : query) (e : String),
      c.keeps (fun s => s.err = some e) → parser.command c n p = some (cmd, p0) →
      p0.err = some e → parser.query c n p = some (q, p1) → p1.err = some e) ∧
    (∀ (c : cmdParsers) (n : Nat) (p p0 p1 p3 : parser) (cmd : command) (q q1 : query)
      (e : String), parser.command c n p = some (cmd, p0) →
      parser.queryLoop c n p0 cmd [] = some (q1, p3) → p3.err = some e →
      parser.query c n p = some (q, p1) → p1.err = some e) ∧
    (∀ (c : cmdParsers) (n : Nat) (toks : List token) (cmd : command) (p0 : parser)
      (q : query) (eo : Option String) (e : String), c.keeps (fun s => s.err = some e) →
      parser.command c n (parser.init toks).advance.2 = some (cmd, p0) → p0.err = some e →
      ParseQuery c n toks = some (q, eo) → eo = some e) ∧
    (∀ (c : cmdParsers) (n : Nat),
      ParseQuery c (n + 4) [⟨tIDENTIFIER, "eval"⟩, ⟨tSPACE, ""⟩, ⟨tLEFT_PAREN, ""⟩,
        ⟨tLEFT_PAREN, ""⟩, ⟨tRIGHT_PAREN, ""⟩] = some ([], some "Found unbalanced parentheses") ∧
      parser.evalExpr (n + 2) ⟨[⟨tRIGHT_PAREN, ""⟩], ⟨tLEFT_PAREN, ""⟩, none, false⟩ []
        = some ([], ⟨[], token.zero, some "Found unbalanced parentheses", true⟩) ∧
      (parser.mk [] token.zero (some "Found unbalanced parentheses") true).error
          "Expected expression inside parentheses"
        = some (parser.mk [] token.zero (some "Found unbalanced parentheses") true)) := by
  refine ⟨parser_advance_stopped, ?_, ?_, ?_, ParseQuery_eq_some, ?_, ?_, ?_, ?_, ?_, ?_, ?_, ?_⟩
  · intro p msg e h
    simp [parser.error, h]
  · intro p msg h
    obtain ⟨p1, h1, h2, h3, _⟩ := error_spec p msg h
    exact ⟨p1, h1, h3, h2⟩
  · intro c n p p1 e hc hp
    refine ⟨?_, ?_, ?_, ?_⟩
    · intro elements r h
      exact stable_evalExpr _ (err_stable e) n p p1 elements r hp h
    · intro cmd h
      simp only [parser.evalCmd, Option.map_eq_some'] at h
      obtain ⟨a, h1, h2⟩ := h
      simp only [Prod.mk.injEq] at h2
      rw [← h2.2]
      exact stable_evalCmdLoop _ (err_stable e) n p a.2 [] a.1 hp h1
    · intro cmd h
      exact stable_command _ (err_stable e) c hc n p (cmd, p1) hp h
    · intro q h
      exact stable_query _ (err_stable e) c hc n p p1 q hp h
  · intro c n p p1 e hc hp
    exact ⟨fun cmdArgs r h => stable_evalCmdLoop _ (err_stable e) n p p1 cmdArgs r hp h,
      fun cmd q r h => stable_queryLoop _ (err_stable e) c hc n p p1 cmd q r hp h⟩
  · intro n p p1 p2 elements r parenExpr e hguard hparen hinner h2 h
    exact evalExpr_after_nested _ (err_stable e) n p p1 p2 elements r parenExpr hguard hparen
      hinner h2 h
  · intro n p p1 p2 cmdArgs r expr e hs hpipe hexpr h2 h
    exact evalCmdLoop_after_evalExpr _ (err_stable e) n p p1 p2 cmdArgs r expr hs hpipe hexpr
      h2 h
  · intro c n p p1 p2 cmd cmd1 q r e hc hs hpipe hcmd h2 h
    exact queryLoop_after_command _ (err_stable e) c hc n p p1 p2 cmd cmd1 q r hs hpipe hcmd
      h2 h
  · intro c n p p0 p1 cmd q e hc hcmd h0 h
    exact query_after_command _ (err_stable e) c hc n p p0 p1 cmd q hcmd h0 h
  · intro c n p p0 p1 p3 cmd q q1 e hcmd hloop h3 h
    exact query_after_loop _ (err_stable e) c n p p0 p1 p3 cmd q q1 hcmd hloop h3 h
  · intro c n toks cmd p0 q eo e hc hcmd h0 h
    obtain ⟨p1, h1, h2⟩ := (ParseQuery_eq_some c n toks q eo).1 h
    rw [← h2]
    exact query_after_command _ (err_stable e) c hc n _ p0 p1 cmd q hcmd h0 h1
  · intro c n
    exact ⟨rfl, rfl, rfl⟩

/-- At the tokens of `eval (()`: `command` returns with the error `Found
unbalanced parentheses` recorded, and this is the error that `ParseQuery`
returns; at the parser that holds the error `first`, stopped at the end of the
input, `advance` and `error` change nothing, and `query` returns with the
error `first`. -/
theorem parser_first_error_wins_witness :
    (parser.mk [] token.zero (some "first") true).advance
      = (false, parser.mk [] token.zero (some "first") true) ∧
    (parser.mk [] token.zero (some "first") true).error "second"
      = some (parser.mk [] token.zero (some "first") true) ∧
    parser.command noCmds 4 (parser.init [⟨tIDENTIFIER, "eval"⟩, ⟨tSPACE, ""⟩,
        ⟨tLEFT_PAREN, ""⟩, ⟨tLEFT_PAREN, ""⟩, ⟨tRIGHT_PAREN, ""⟩]).advance.2
      = some (command.mk "eval" (some (visitable.ofCommaSepArgs [visitable.ofExprElements []])),
          ⟨[], token.zero, some "Found unbalanced parentheses", true⟩) ∧
    ParseQuery noCmds 4 [⟨tIDENTIFIER, "eval"⟩, ⟨tSPACE, ""⟩, ⟨tLEFT_PAREN, ""⟩,
        ⟨tLEFT_PAREN, ""⟩, ⟨tRIGHT_PAREN, ""⟩] = some ([], some "Found unbalanced parentheses") ∧
    some "Found unbalanced parentheses" = some "Found unbalanced parentheses" ∧
    parser.query noCmds 1 (parser.mk [] token.zero (some "first") true)
      = some ([], parser.mk [] token.zero (some "first") true) ∧
    (parser.mk [] token.zero (some "first") true).err = some "first" :=
  ⟨parser_first_error_wins.1 _ rfl, parser_first_error_wins.2.1 _ "second" "first" rfl, rfl, rfl,
    parser_first_error_wins.2.2.2.2.2.2.2.2.2.2.2.1 noCmds 4 _ _ _ [] _
      "Found unbalanced parentheses" (noCmds_keeps _)
      (rfl : parser.command noCmds 4 (parser.init [⟨tIDENTIFIER, "eval"⟩, ⟨tSPACE, ""⟩,
        ⟨tLEFT_PAREN, ""⟩, ⟨tLEFT_PAREN, ""⟩, ⟨tRIGHT_PAREN, ""⟩]).advance.2
        = some (command.mk "eval"
            (some (visitable.ofCommaSepArgs [visitable.ofExprElements []])),
          ⟨[], token.zero, some "Found unbalanced parentheses", true⟩)) rfl rfl, rfl,
    (parser_first_error_wins.2.2.2.1 noCmds 1 (parser.mk [] token.zero (some "first") true)
      (parser.mk [] token.zero (some "first") true) "first" (noCmds_keeps _) rfl).2.2.2 [] rfl⟩

end queryprint
